import Mathlib

/-!
# Verification of the TreeFrog `TCookie` cookie model and header parser

Shallow embedding of `src/tcookie.h` (class `TCookie : public QNetworkCookie`,
with extension fields `_maxAge {INT64_MIN}` and `_sameSite`) together with the
operations `setMaxAge`, `setSameSite`, `toRawForm`, `operator==`/`operator!=`
and the static `parseCookies`, as specified in `spec.md`.

Byte sequences (`QByteArray`) are modelled as `List Char`; the 64-bit signed
`qint64` is modelled as `Int` together with the explicit sentinel
`INT64_MIN = -(2^63)`.
-/

/-- `INT64_MIN`, the "unset" sentinel of the `_maxAge` field
(`qint64 _maxAge {INT64_MIN};` in `tcookie.h`). -/
def INT64_MIN : Int := -(2 ^ 63)

/-- Whitespace characters (space, tab, newline, carriage return). -/
def isWS (c : Char) : Bool := c = ' ' || c = '\t' || c = '\n' || c = '\r'

/-- Drop trailing whitespace. -/
def dropTrail (s : List Char) : List Char := (s.reverse.dropWhile isWS).reverse

/-- Trim leading and trailing whitespace. -/
def trim (s : List Char) : List Char := dropTrail (s.dropWhile isWS)

/-- ASCII-style case normalization of a byte sequence. -/
def lowerStr (s : List Char) : List Char := s.map Char.toLower

/-- Split a byte sequence at the first occurrence of `=`:
`splitFirstEq s = some (n, v)` when `s = n ++ '=' :: v` with no `=` in `n`,
and `none` when `s` contains no `=`. -/
def splitFirstEq : List Char → Option (List Char × List Char)
  | [] => none
  | c :: cs =>
    if c = '=' then some ([], cs)
    else
      match splitFirstEq cs with
      | none => none
      | some (n, v) => some (c :: n, v)

/-- Split a byte sequence on every `;` (the attribute delimiter). -/
def splitSemi : List Char → List (List Char)
  | [] => [[]]
  | c :: cs =>
    if c = ';' then [] :: splitSemi cs
    else
      match splitSemi cs with
      | [] => [[c]]
      | t :: ts => (c :: t) :: ts

/-- The prefix of a byte sequence up to (excluding) the first comma. -/
def upToComma : List Char → List Char
  | [] => []
  | c :: cs => if c = ',' then [] else c :: upToComma cs

/-- Whether a byte sequence contains a `=`. -/
def hasEq (s : List Char) : Bool := s.any (fun c => c = '=')

/-- The case-normalized attribute name of a (partial) attribute token:
the part before the first `=`, trimmed and lowercased; the whole trimmed
token when no `=` is present. -/
def attrNameOf (tok : List Char) : List Char :=
  match splitFirstEq tok with
  | some (n, _) => lowerStr (trim n)
  | none => lowerStr (trim tok)

/-- Modelled from the spec: the comma-boundary heuristic of
`TCookie::parseCookies` (whose definition is not under `src/`; only its
declaration in `tcookie.h` is).  `eqTokenAfter post` holds when the comma
whose right context is `post` is immediately followed by whitespace and a
token (up to the next delimiter) matching `name=value` syntax. -/
def eqTokenAfter : List Char → Bool
  | [] => false
  | c :: cs => isWS c && hasEq (upToComma ((c :: cs).dropWhile isWS))

/-- Modelled from the spec: the full separator decision for a comma inside a
cookie-scope segment: the comma with left context `pre` (since the start of
the current attribute token) and right context `post` starts a new cookie
exactly when the current token is not an `Expires=<HTTP-date>` attribute and
the comma is followed by whitespace and a `name=value` token. -/
def sepAt (pre post : List Char) : Bool :=
  !(attrNameOf pre == ("expires").toList) && eqTokenAfter post

/-- Find the first separator comma in `rest` (with already scanned, reversed
prefix `preRev`): returns `some (u, w)` when the scope splits as
`u ++ ',' :: w` at the first separator comma. -/
def findSplit (preRev : List Char) : List Char → Option (List Char × List Char)
  | [] => none
  | c :: cs =>
    if c = ',' then
      if sepAt preRev.reverse cs then some (preRev.reverse, cs)
      else findSplit (c :: preRev) cs
    else findSplit (c :: preRev) cs

/-- Fuel-driven splitting of one `;`-segment at its separator commas. -/
def splitSepF : Nat → List Char → List (List Char)
  | 0, seg => [seg]
  | fuel + 1, seg =>
    match findSplit [] seg with
    | none => [seg]
    | some (u, w) => u :: splitSepF fuel w

/-- Modelled from the spec: split one `;`-delimited segment at its separator
commas (the comma-boundary heuristic of `TCookie::parseCookies`). -/
def splitSepCommas (seg : List Char) : List (List Char) :=
  splitSepF seg.length seg

/-- The `QNetworkCookie` base model: the abstract capability set
{name, value, domain, path, expirationDate, secure, httpOnly} of the
baseline cookie type that `TCookie` extends (`class TCookie : public
QNetworkCookie`).  The optional expiration timestamp is kept abstract as
the (trimmed) HTTP-date text, `[]` meaning "unset". -/
structure QNetworkCookie where
  name : List Char := []
  value : List Char := []
  domain : List Char := []
  path : List Char := []
  expirationDate : List Char := []
  secure : Bool := false
  httpOnly : Bool := false
deriving DecidableEq

/-- The `TCookie` record of `tcookie.h`: the base cookie plus the two
extension fields, with the default member initializers of the header
(`qint64 _maxAge {INT64_MIN};` and a default-constructed `_sameSite`). -/
structure TCookie extends QNetworkCookie where
  maxAge : Int := INT64_MIN
  sameSite : List Char := []
deriving DecidableEq

/-- The `TCookie(name, value)` constructor: stores name/value, every other
field default-initialized, `maxAge` at the unset sentinel. -/
def mkCookie (n v : List Char) : TCookie := { name := n, value := v }

/-- Modelled from the spec: the `TCookie(const QNetworkCookie &)` conversion
constructor (whose definition is not under `src/`): it copies the base
fields and leaves the two extension fields at the defaults of the header. -/
def TCookie.fromQNetworkCookie (q : QNetworkCookie) : TCookie :=
  { toQNetworkCookie := q }

/-- `TCookie::setMaxAge` from `tcookie.h`:
`void setMaxAge(qint64 maxAge) { _maxAge = maxAge; }` — stores the argument
unconditionally, with no validation. -/
def TCookie.setMaxAge (c : TCookie) (n : Int) : TCookie := { c with maxAge := n }

/-- The three admissible `SameSite` tokens, matched case-insensitively. -/
def validSameSite (t : List Char) : Bool :=
  lowerStr t == ("strict").toList || lowerStr t == ("lax").toList ||
    lowerStr t == ("none").toList

/-- Modelled from the spec: `TCookie::setSameSite` (whose definition is not
under `src/`): on a token case-insensitively in {Strict, Lax, None} it
stores the raw token and returns `true`; otherwise it leaves the stored
value untouched and returns `false`.  No exception channel exists: the
result is the pair (success flag, updated record). -/
def TCookie.setSameSite (c : TCookie) (t : List Char) : Bool × TCookie :=
  if validSameSite t then (true, { c with sameSite := t }) else (false, c)

/-- The character of one decimal digit. -/
def dChar : Nat → Char
  | 0 => '0'
  | 1 => '1'
  | 2 => '2'
  | 3 => '3'
  | 4 => '4'
  | 5 => '5'
  | 6 => '6'
  | 7 => '7'
  | 8 => '8'
  | _ => '9'

/-- Decimal digit characters of a natural number (big-endian). -/
def natToStr (n : Nat) : List Char :=
  if n = 0 then [('0' : Char)]
  else ((Nat.digits 10 n).map dChar).reverse

/-- Decimal rendering of an integer (as Qt's `QByteArray::number`). -/
def intToStr (n : Int) : List Char :=
  if n < 0 then '-' :: natToStr n.natAbs else natToStr n.toNat

/-- Modelled from the spec: `TCookie::toRawForm` (whose definition is not
under `src/`): in full mode it emits `name=value` and then the set
attributes in the fixed order Expires, Max-Age (omitted at the unset
sentinel), Domain, Path, Secure, HttpOnly (bare tokens), SameSite, each
separated by `; `; in name-value-only mode just `name=value`. -/
def TCookie.toRawForm (c : TCookie) (full : Bool) : List Char :=
  let nv := c.name ++ '=' :: c.value
  if full then
    nv
      ++ (if c.expirationDate = [] then []
          else ("; Expires=").toList ++ c.expirationDate)
      ++ (if c.maxAge = INT64_MIN then []
          else ("; Max-Age=").toList ++ intToStr c.maxAge)
      ++ (if c.domain = [] then [] else ("; Domain=").toList ++ c.domain)
      ++ (if c.path = [] then [] else ("; Path=").toList ++ c.path)
      ++ (if c.secure then ("; Secure").toList else [])
      ++ (if c.httpOnly then ("; HttpOnly").toList else [])
      ++ (if c.sameSite = [] then []
          else ("; SameSite=").toList ++ c.sameSite)
  else nv

/-- Modelled from the spec: `TCookie::operator==` (whose definition is not
under `src/`): equal iff every field matches, the domain compared
case-insensitively, all other fields exactly. -/
def TCookie.eqCookie (a b : TCookie) : Bool :=
  a.name == b.name && a.value == b.value &&
    lowerStr a.domain == lowerStr b.domain && a.path == b.path &&
    a.expirationDate == b.expirationDate && a.maxAge == b.maxAge &&
    a.secure == b.secure && a.httpOnly == b.httpOnly &&
    a.sameSite == b.sameSite

/-- Modelled from the spec: `TCookie::operator!=`, the negation of
`operator==`. -/
def TCookie.neCookie (a b : TCookie) : Bool := !(a.eqCookie b)

/-- Parse the decimal digits of a natural number, failing on a non-digit. -/
def natOfDigitsAux : Nat → List Char → Option Nat
  | acc, [] => some acc
  | acc, c :: cs =>
    if '0' ≤ c ∧ c ≤ '9' then natOfDigitsAux (acc * 10 + (c.toNat - 48)) cs
    else none

/-- Parse a nonempty all-digit byte sequence as a natural number. -/
def natOfDigits : List Char → Option Nat
  | [] => none
  | c :: cs => natOfDigitsAux 0 (c :: cs)

/-- Parse an optionally signed decimal integer, failing on any other text. -/
def parseIntRaw : List Char → Option Int
  | [] => none
  | c :: cs =>
    if c = '-' then (natOfDigits cs).map (fun n => -(Int.ofNat n))
    else if c = '+' then (natOfDigits cs).map Int.ofNat
    else (natOfDigits (c :: cs)).map Int.ofNat

/-- Modelled from the spec: the `Max-Age` value parser of
`TCookie::parseCookies`: the value is read as a 64-bit signed integer;
any unparseable or out-of-range text fails (and the attribute is dropped). -/
def parseInt64 (s : List Char) : Option Int :=
  (parseIntRaw s).bind
    (fun n => if -(2 ^ 63) ≤ n ∧ n < 2 ^ 63 then some n else none)

/-- Modelled from the spec: attribute dispatch of `TCookie::parseCookies` on
one (trimmed) `;`-delimited attribute token: split at the first `=`, match
the attribute name case-insensitively against the recognized set, silently
ignore unrecognized names; `Secure`/`HttpOnly` are boolean flags, a
malformed `Max-Age` and an invalid `SameSite` token are dropped. -/
def applyAttr (c : TCookie) (tok : List Char) : TCookie :=
  match splitFirstEq tok with
  | none =>
    let n := lowerStr (trim tok)
    if n = ("secure").toList then { c with secure := true }
    else if n = ("httponly").toList then { c with httpOnly := true }
    else c
  | some (rawN, rawV) =>
    let n := lowerStr (trim rawN)
    let v := trim rawV
    if n = ("expires").toList then { c with expirationDate := v }
    else if n = ("max-age").toList then
      match parseInt64 v with
      | some k => { c with maxAge := k }
      | none => c
    else if n = ("domain").toList then { c with domain := v }
    else if n = ("path").toList then { c with path := v }
    else if n = ("secure").toList then { c with secure := true }
    else if n = ("httponly").toList then { c with httpOnly := true }
    else if n = ("samesite").toList then (c.setSameSite v).2
    else c

/-- Modelled from the spec: the `name=value` pair of a cookie scope's first
token: split at the first `=`; when no `=` is present the whole token is the
value and the name is empty. -/
def buildFirst (tok : List Char) : TCookie :=
  match splitFirstEq tok with
  | some (n, v) => mkCookie (trim n) (trim v)
  | none => mkCookie [] (trim tok)

/-- Modelled from the spec: build one cookie from the (trimmed) tokens of
its scope; an entirely empty/whitespace scope yields no cookie. -/
def buildCookie (toks : List (List Char)) : Option TCookie :=
  let ts := toks.map trim
  if ts.all (fun t => t == []) then none
  else
    match ts with
    | [] => none
    | t0 :: rest => some (rest.foldl applyAttr (buildFirst t0))

/-- Tag the pieces of every segment: `false` for a piece reached over a `;`
(continuing the current cookie), `true` for a piece reached over a
separator comma (starting a new cookie). -/
def tagPieces : List (List Char) → List (Bool × List Char)
  | [] => []
  | seg :: rest =>
    (match splitSepCommas seg with
     | [] => []
     | p :: ps => (false, p) :: ps.map (fun q => (true, q))) ++ tagPieces rest

/-- Group the tagged pieces into cookie scopes (token lists). -/
def groupTagged (cur : List (List Char)) :
    List (Bool × List Char) → List (List (List Char))
  | [] => [cur.reverse]
  | (b, p) :: rest =>
    if b then cur.reverse :: groupTagged [p] rest
    else groupTagged (p :: cur) rest

/-- Modelled from the spec: `TCookie::parseCookies` (whose definition is not
under `src/`; only its declaration in `tcookie.h` is): scan the header
left-to-right, split on `;` into tokens and at heuristic comma boundaries
into cookie scopes, build each scope's cookie from its `name=value` pair and
its recognized attributes, and return them in input order. -/
def parseCookies (s : List Char) : List TCookie :=
  (groupTagged [] (tagPieces (splitSemi s))).filterMap buildCookie

example : parseCookies (("").toList) = [] := by decide

example : parseCookies (("   ").toList) = [] := by decide

example :
    parseCookies (("a=1, b=2").toList) =
      [mkCookie (("a").toList) (("1").toList),
        mkCookie (("b").toList) (("2").toList)] := by decide

example :
    parseCookies (("a=1; Expires=Wed, 09 Jun 2021 10:18:14 GMT").toList) =
      [{ mkCookie (("a").toList) (("1").toList) with
          expirationDate := ("Wed, 09 Jun 2021 10:18:14 GMT").toList }] := by
  decide

example :
    (parseCookies (("a=1; Max-Age=0").toList)).map TCookie.maxAge = [0] := by
  decide

example :
    (parseCookies (("a=1; Max-Age=notanumber").toList)).map TCookie.maxAge =
      [INT64_MIN] := by decide

/-! ## C2 — `setSameSite` validation -/

/-- C2: `setSameSite` returns `true` and stores the token exactly when it
case-insensitively matches one of Strict, Lax, None; on any other token it
returns `false` and leaves the previously stored `sameSite` value unchanged
(being a total function, it never raises an exception). -/
theorem setSameSite_spec (c : TCookie) (t : List Char) :
    ((lowerStr t = ("strict").toList ∨ lowerStr t = ("lax").toList ∨
        lowerStr t = ("none").toList) →
      c.setSameSite t = (true, { c with sameSite := t })) ∧
    (¬(lowerStr t = ("strict").toList ∨ lowerStr t = ("lax").toList ∨
        lowerStr t = ("none").toList) →
      c.setSameSite t = (false, c)) := by
  have hv : validSameSite t = true ↔
      (lowerStr t = ("strict").toList ∨ lowerStr t = ("lax").toList ∨
        lowerStr t = ("none").toList) := by
    simp [validSameSite, Bool.or_eq_true, or_assoc]
  constructor
  · intro h
    simp [TCookie.setSameSite, hv.2 h]
  · intro h
    have hf : validSameSite t = false := by
      cases hb : validSameSite t
      · rfl
      · exact absurd (hv.1 hb) h
    simp [TCookie.setSameSite, hf]

/-- Witness for C2 at concrete inputs. -/
theorem setSameSite_spec_witness :
    (mkCookie [] []).setSameSite (("Strict").toList) =
      (true, { mkCookie [] [] with sameSite := ("Strict").toList }) ∧
    ({ mkCookie [] [] with
        sameSite := ("Lax").toList }).setSameSite (("bogus").toList) =
      (false, { mkCookie [] [] with sameSite := ("Lax").toList }) :=
  ⟨(setSameSite_spec _ _).1 (by decide), (setSameSite_spec _ _).2 (by decide)⟩

/-! ## C3 — `Max-Age` parsing -/

/-- C3: `Max-Age` is parsed as a signed integer: `Max-Age=0` yields a cookie
whose `maxAge` is `0`, distinct from the unset sentinel, while an
unparseable value leaves `maxAge` at the sentinel and keeps the rest of the
cookie (name and value) intact. -/
theorem maxAge_parse_spec :
    parseCookies (("a=1; Max-Age=0").toList) =
      [{ mkCookie (("a").toList) (("1").toList) with maxAge := 0 }] ∧
    (0 : Int) ≠ INT64_MIN ∧
    parseCookies (("a=1; Max-Age=notanumber").toList) =
      [mkCookie (("a").toList) (("1").toList)] ∧
    (mkCookie (("a").toList) (("1").toList)).maxAge = INT64_MIN :=
  ⟨by decide, by decide, by decide, rfl⟩

/-! ## C5 — comma boundary heuristic -/

/-- C5: a comma followed by whitespace and a `name=value` token starts a new
cookie, so `a=1, b=2` parses as two cookies; the comma inside an
`Expires=<HTTP-date>` attribute does not, so the date string yields exactly
one cookie with its `expirationDate` set from the date. -/
theorem comma_boundary_spec :
    parseCookies (("a=1, b=2").toList) =
      [mkCookie (("a").toList) (("1").toList),
        mkCookie (("b").toList) (("2").toList)] ∧
    parseCookies (("a=1; Expires=Wed, 09 Jun 2021 10:18:14 GMT").toList) =
      [{ mkCookie (("a").toList) (("1").toList) with
          expirationDate := ("Wed, 09 Jun 2021 10:18:14 GMT").toList }] :=
  ⟨by decide, by decide⟩

/-! ## C7 — whole-record equality -/

/-- C7: `operator==` is true iff every field matches, the domain compared
case-insensitively and all other fields exactly; hence a difference in any
single field (for example `maxAge` or `sameSite`) makes two records
unequal, and `operator!=` is the negation of `operator==`. -/
theorem eqCookie_spec (a b : TCookie) :
    (a.eqCookie b = true ↔
      (a.name = b.name ∧ a.value = b.value ∧
        lowerStr a.domain = lowerStr b.domain ∧ a.path = b.path ∧
        a.expirationDate = b.expirationDate ∧ a.maxAge = b.maxAge ∧
        a.secure = b.secure ∧ a.httpOnly = b.httpOnly ∧
        a.sameSite = b.sameSite)) ∧
    (a.neCookie b = !(a.eqCookie b)) ∧
    (a.maxAge ≠ b.maxAge → a.eqCookie b = false) ∧
    (a.sameSite ≠ b.sameSite → a.eqCookie b = false) := by
  have hiff : a.eqCookie b = true ↔
      (a.name = b.name ∧ a.value = b.value ∧
        lowerStr a.domain = lowerStr b.domain ∧ a.path = b.path ∧
        a.expirationDate = b.expirationDate ∧ a.maxAge = b.maxAge ∧
        a.secure = b.secure ∧ a.httpOnly = b.httpOnly ∧
        a.sameSite = b.sameSite) := by
    simp [TCookie.eqCookie, Bool.and_eq_true, and_assoc]
  refine ⟨hiff, rfl, ?_, ?_⟩
  · intro h
    cases hb : a.eqCookie b
    · rfl
    · exact absurd (hiff.1 hb).2.2.2.2.2.1 h
  · intro h
    cases hb : a.eqCookie b
    · rfl
    · exact absurd (hiff.1 hb).2.2.2.2.2.2.2.2 h

/-- Witness for C7 at concrete records. -/
theorem eqCookie_spec_witness :
    (mkCookie (("a").toList) []).eqCookie
        ((mkCookie (("a").toList) []).setMaxAge 5) = false ∧
    (mkCookie (("a").toList) []).eqCookie
        { mkCookie (("a").toList) [] with sameSite := ("Lax").toList } =
      false :=
  ⟨(eqCookie_spec _ _).2.2.1 (by decide), (eqCookie_spec _ _).2.2.2 (by decide)⟩

/-! ## C9 — `setMaxAge` performs no validation -/

/-- C9: `setMaxAge` accepts every 64-bit signed integer unconditionally, and
storing `INT64_MIN` makes the record identical to one whose `Max-Age` was
never set, since `INT64_MIN` is exactly the default unset sentinel. -/
theorem setMaxAge_spec (c : TCookie) (n : Int)
    (h1 : INT64_MIN ≤ n) (h2 : n < 2 ^ 63) :
    (c.setMaxAge n).maxAge = n ∧
    (∀ nm v, (mkCookie nm v).setMaxAge INT64_MIN = mkCookie nm v ∧
      (mkCookie nm v).maxAge = INT64_MIN) :=
  ⟨rfl, fun _ _ => ⟨rfl, rfl⟩⟩

/-- Witness for C9 at concrete inputs. -/
theorem setMaxAge_spec_witness :
    ((mkCookie [] []).setMaxAge 5).maxAge = 5 ∧
    (mkCookie (("a").toList) []).setMaxAge INT64_MIN =
      mkCookie (("a").toList) [] :=
  ⟨(setMaxAge_spec (mkCookie [] []) 5 (by decide) (by decide)).1,
    ((setMaxAge_spec (mkCookie [] []) 5 (by decide) (by decide)).2
      (("a").toList) []).1⟩

/-! ## C10 — conversion from the base cookie model -/

/-- C10: constructing a `TCookie` from a plain `QNetworkCookie` leaves the
two extension fields at their defaults — `maxAge` at the sentinel
`INT64_MIN` and `sameSite` empty — regardless of the base cookie's
contents (which are copied unchanged). -/
theorem fromQNetworkCookie_spec (q : QNetworkCookie) :
    (TCookie.fromQNetworkCookie q).maxAge = INT64_MIN ∧
    (TCookie.fromQNetworkCookie q).sameSite = [] ∧
    (TCookie.fromQNetworkCookie q).toQNetworkCookie = q :=
  ⟨rfl, rfl, rfl⟩

/-! ## C4 — empty and whitespace-only input -/

/-- `splitSemi` of a `;`-free byte sequence is the single segment itself. -/
theorem splitSemi_no_semi (s : List Char) (h : ∀ c ∈ s, c ≠ ';') :
    splitSemi s = [s] := by
  induction s with
  | nil => rfl
  | cons c cs ih =>
    have hc : c ≠ ';' := h c (List.mem_cons_self c cs)
    have ih' := ih (fun x hx => h x (List.mem_cons_of_mem c hx))
    simp [splitSemi, hc, ih']

/-- `findSplit` finds nothing in a comma-free byte sequence. -/
theorem findSplit_no_comma (pr s : List Char) (h : ∀ c ∈ s, c ≠ ',') :
    findSplit pr s = none := by
  induction s generalizing pr with
  | nil => rfl
  | cons c cs ih =>
    have hc : c ≠ ',' := h c (List.mem_cons_self c cs)
    simp only [findSplit, if_neg hc]
    exact ih _ (fun x hx => h x (List.mem_cons_of_mem c hx))

/-- A comma-free segment is a single piece. -/
theorem splitSepCommas_no_comma (s : List Char) (h : ∀ c ∈ s, c ≠ ',') :
    splitSepCommas s = [s] := by
  unfold splitSepCommas
  cases hl : s.length with
  | zero => rfl
  | succ n => simp [splitSepF, findSplit_no_comma [] s h]

/-- Trimming an all-whitespace byte sequence yields the empty sequence. -/
theorem trim_all_ws (s : List Char) (h : ∀ c ∈ s, isWS c = true) :
    trim s = [] := by
  have hd : s.dropWhile isWS = [] := List.dropWhile_eq_nil_iff.2 h
  simp [trim, hd, dropTrail]

/-- C4: `parseCookies` of the empty string and of any whitespace-only string
returns the empty sequence (and, being a total function, signals no
error). -/
theorem parseCookies_ws_spec (s : List Char) (h : ∀ c ∈ s, isWS c = true) :
    parseCookies s = [] := by
  have hsemi : ∀ c ∈ s, c ≠ ';' := by
    intro c hc heq
    have hw := h c hc
    rw [heq] at hw
    simp [isWS] at hw
  have hcomma : ∀ c ∈ s, c ≠ ',' := by
    intro c hc heq
    have hw := h c hc
    rw [heq] at hw
    simp [isWS] at hw
  have h1 : splitSemi s = [s] := splitSemi_no_semi s hsemi
  have h2 : splitSepCommas s = [s] := splitSepCommas_no_comma s hcomma
  have h3 : trim s = [] := trim_all_ws s h
  simp [parseCookies, h1, tagPieces, h2, groupTagged, buildCookie, h3]

/-- Witness for C4: the empty header and a whitespace-only header. -/
theorem parseCookies_ws_spec_witness :
    parseCookies (("").toList) = [] ∧ parseCookies (("   ").toList) = [] :=
  ⟨parseCookies_ws_spec _ (by decide), parseCookies_ws_spec _ (by decide)⟩

/-! ## C6 — deterministic attribute emission order -/

/-- Join byte sequences with the two-character separator `; `. -/
def sepJoin : List (List Char) → List Char
  | [] => []
  | [x] => x
  | x :: y :: rest => x ++ ("; ").toList ++ sepJoin (y :: rest)

/-- The attribute sequence the spec prescribes for full-mode serialization:
`name=value`, then `Expires`, `Max-Age` (omitted at the sentinel), `Domain`,
`Path`, the bare flags `Secure` and `HttpOnly`, then `SameSite`, each
present exactly when set. -/
def specAttrSeq (c : TCookie) : List (List Char) :=
  [c.name ++ '=' :: c.value]
    ++ (if c.expirationDate = [] then []
        else [("Expires=").toList ++ c.expirationDate])
    ++ (if c.maxAge = INT64_MIN then []
        else [("Max-Age=").toList ++ intToStr c.maxAge])
    ++ (if c.domain = [] then [] else [("Domain=").toList ++ c.domain])
    ++ (if c.path = [] then [] else [("Path=").toList ++ c.path])
    ++ (if c.secure then [("Secure").toList] else [])
    ++ (if c.httpOnly then [("HttpOnly").toList] else [])
    ++ (if c.sameSite = [] then []
        else [("SameSite=").toList ++ c.sameSite])

/-- C6: full-mode `toRawForm` emits exactly the set attributes, in the fixed
order `name=value`, Expires, Max-Age (omitted at the unset sentinel),
Domain, Path, Secure, HttpOnly, SameSite, with consecutive attributes
separated by the two characters `; `. -/
theorem sepJoin_cons (x : List Char) (rest : List (List Char)) :
    sepJoin (x :: rest) =
      x ++ (rest.map (fun y => ("; ").toList ++ y)).flatten := by
  induction rest generalizing x with
  | nil => simp [sepJoin]
  | cons y ys ih => simp [sepJoin, ih y, List.append_assoc]

theorem toRawForm_full_order (c : TCookie) :
    c.toRawForm true = sepJoin (specAttrSeq c) := by
  have hExp : ("; Expires=").toList = ("; ").toList ++ ("Expires=").toList :=
    rfl
  have hMax : ("; Max-Age=").toList = ("; ").toList ++ ("Max-Age=").toList :=
    rfl
  have hDom : ("; Domain=").toList = ("; ").toList ++ ("Domain=").toList := rfl
  have hPath : ("; Path=").toList = ("; ").toList ++ ("Path=").toList := rfl
  have hSec : ("; Secure").toList = ("; ").toList ++ ("Secure").toList := rfl
  have hHo : ("; HttpOnly").toList = ("; ").toList ++ ("HttpOnly").toList :=
    rfl
  have hSS : ("; SameSite=").toList = ("; ").toList ++ ("SameSite=").toList :=
    rfl
  unfold TCookie.toRawForm specAttrSeq
  simp only [if_true, List.append_assoc, List.cons_append]
  rw [sepJoin_cons]
  simp only [List.map_append, List.flatten_append,
    apply_ite (List.map (fun y => ("; ").toList ++ y)),
    apply_ite List.flatten, List.map_cons, List.map_nil, List.flatten_cons,
    List.flatten_nil, List.append_nil, List.nil_append]
  rw [hExp, hMax, hDom, hPath, hSec, hHo, hSS]
  simp [List.append_assoc]

/-! ## C8 — unrecognized attributes and bare flags -/

/-- The recognized attribute names (case-normalized). -/
def recognizedNames : List (List Char) :=
  [("expires").toList, ("max-age").toList, ("domain").toList,
    ("path").toList, ("secure").toList, ("httponly").toList,
    ("samesite").toList]

/-- C8: an attribute token whose case-insensitive name is not in the
recognized set {Expires, Max-Age, Domain, Path, Secure, HttpOnly, SameSite}
is silently ignored, leaving every field of the cookie unchanged, while a
token without `=` matching Secure or HttpOnly sets the corresponding
boolean flag to true. -/
theorem applyAttr_spec (c : TCookie) (tok : List Char) :
    (attrNameOf tok ∉ recognizedNames → applyAttr c tok = c) ∧
    (splitFirstEq tok = none → lowerStr (trim tok) = ("secure").toList →
      applyAttr c tok = { c with secure := true }) ∧
    (splitFirstEq tok = none → lowerStr (trim tok) = ("httponly").toList →
      applyAttr c tok = { c with httpOnly := true }) := by
  refine ⟨?_, ?_, ?_⟩
  · intro h
    simp only [recognizedNames, List.mem_cons, List.not_mem_nil, or_false,
      not_or] at h
    obtain ⟨h1, h2, h3, h4, h5, h6, h7⟩ := h
    unfold applyAttr
    cases he : splitFirstEq tok with
    | none =>
      simp only [attrNameOf, he] at h1 h2 h3 h4 h5 h6 h7
      simp only [he]
      rw [if_neg h5, if_neg h6]
    | some nv =>
      obtain ⟨n, v⟩ := nv
      simp only [attrNameOf, he] at h1 h2 h3 h4 h5 h6 h7
      simp only [he]
      rw [if_neg h1, if_neg h2, if_neg h3, if_neg h4, if_neg h5, if_neg h6,
        if_neg h7]
  · intro he hn
    unfold applyAttr
    simp only [he]
    rw [if_pos hn]
  · intro he hn
    unfold applyAttr
    have hns : ¬lowerStr (trim tok) = ("secure").toList := by
      rw [hn]; decide
    simp only [he]
    rw [if_neg hns, if_pos hn]

/-- Witness for C8 at concrete attribute tokens. -/
theorem applyAttr_spec_witness :
    applyAttr (mkCookie (("a").toList) (("1").toList))
        (("Unknown=5").toList) =
      mkCookie (("a").toList) (("1").toList) ∧
    applyAttr (mkCookie [] []) (("Secure").toList) =
      { mkCookie [] [] with secure := true } ∧
    applyAttr (mkCookie [] []) (("HttpOnly").toList) =
      { mkCookie [] [] with httpOnly := true } :=
  ⟨(applyAttr_spec _ _).1 (by decide),
    (applyAttr_spec _ _).2.1 (by decide) (by decide),
    (applyAttr_spec _ _).2.2 (by decide) (by decide)⟩

/-! ## C1 — round-trip stability: infrastructure

Throughout, `headNoWS`/`lastNoWS` say that a byte sequence does not start,
respectively end, with whitespace, and `allWS` that it is pure whitespace.
-/

def headNoWS (s : List Char) : Prop := ∀ c, s.head? = some c → isWS c = false

def lastNoWS (s : List Char) : Prop := ∀ c, s.getLast? = some c → isWS c = false

def allWS (s : List Char) : Prop := ∀ c ∈ s, isWS c = true

theorem allWS_nil : allWS [] := by intro c hc; cases hc

theorem headNoWS_dropWhile (l : List Char) : headNoWS (l.dropWhile isWS) := by
  induction l with
  | nil => intro c hc; cases hc
  | cons a l ih =>
    intro c hc
    by_cases ha : isWS a = true
    · rw [List.dropWhile_cons_of_pos ha] at hc
      exact ih c hc
    · rw [List.dropWhile_cons_of_neg ha] at hc
      cases hc
      simpa using ha

theorem dropWhile_eq_self_of_headNoWS (l : List Char) (h : headNoWS l) :
    l.dropWhile isWS = l := by
  cases l with
  | nil => rfl
  | cons a l =>
    have := h a rfl
    rw [List.dropWhile_cons_of_neg (by simp [this])]

theorem dropTrail_eq_self_of_lastNoWS (l : List Char) (h : lastNoWS l) :
    dropTrail l = l := by
  unfold dropTrail
  have hrev : headNoWS l.reverse := by
    intro c hc
    exact h c (by rw [← List.head?_reverse]; exact hc)
  rw [dropWhile_eq_self_of_headNoWS _ hrev, List.reverse_reverse]

theorem trim_eq_self (s : List Char) (h1 : headNoWS s) (h2 : lastNoWS s) :
    trim s = s := by
  unfold trim
  rw [dropWhile_eq_self_of_headNoWS _ h1, dropTrail_eq_self_of_lastNoWS _ h2]

theorem lastNoWS_dropTrail (l : List Char) : lastNoWS (dropTrail l) := by
  intro c hc
  unfold dropTrail at hc
  rw [← List.head?_reverse, List.reverse_reverse] at hc
  exact headNoWS_dropWhile l.reverse c hc

theorem dropTrail_decomp (l : List Char) :
    ∃ b, allWS b ∧ l = dropTrail l ++ b := by
  refine ⟨(l.reverse.takeWhile isWS).reverse, ?_, ?_⟩
  · intro c hc
    rw [List.mem_reverse] at hc
    exact List.mem_takeWhile_imp hc
  · unfold dropTrail
    rw [← List.reverse_append, List.takeWhile_append_dropWhile,
      List.reverse_reverse]

theorem headNoWS_append_left (x y : List Char) (hx : headNoWS x)
    (hxe : x ≠ []) : headNoWS (x ++ y) := by
  cases x with
  | nil => exact absurd rfl hxe
  | cons a l => intro c hc; cases hc; exact hx a rfl

theorem headNoWS_of_append (x y : List Char) (h : headNoWS (x ++ y))
    (hxe : x ≠ []) : headNoWS x := by
  cases x with
  | nil => exact absurd rfl hxe
  | cons a l => intro c hc; cases hc; exact h a rfl

theorem trim_decomp (s : List Char) :
    ∃ a b, allWS a ∧ allWS b ∧ s = a ++ trim s ++ b ∧
      headNoWS (trim s) ∧ lastNoWS (trim s) := by
  obtain ⟨b, hb, hdecomp⟩ := dropTrail_decomp (s.dropWhile isWS)
  refine ⟨s.takeWhile isWS, b, ?_, hb, ?_, ?_, lastNoWS_dropTrail _⟩
  · intro c hc
    exact List.mem_takeWhile_imp hc
  · conv_lhs => rw [← List.takeWhile_append_dropWhile (p := isWS) (l := s)]
    rw [hdecomp]
    simp [trim, List.append_assoc]
  · unfold trim
    intro c hc
    have hh := headNoWS_dropWhile s
    rcases hd : dropTrail (s.dropWhile isWS) with _ | ⟨a, l⟩
    · rw [hd] at hc; cases hc
    · rw [hd] at hc
      cases hc
      have : s.dropWhile isWS = c :: (l ++ b) := by
        rw [hdecomp, hd]; simp
      exact hh c (by rw [this]; rfl)

theorem trim_nil : trim [] = [] := rfl

theorem headNoWS_of_trim_eq (s : List Char) (h : trim s = s) :
    headNoWS s ∧ lastNoWS s := by
  obtain ⟨a, b, _, _, hdec, hh, hl⟩ := trim_decomp s
  rw [h] at hdec hh hl
  exact ⟨hh, hl⟩

theorem trim_idem (s : List Char) : trim (trim s) = trim s := by
  obtain ⟨a, b, _, _, _, hh, hl⟩ := trim_decomp s
  exact trim_eq_self _ hh hl

theorem mem_dropTrail (l : List Char) (c : Char) (h : c ∈ dropTrail l) :
    c ∈ l := by
  unfold dropTrail at h
  rw [List.mem_reverse] at h
  have := (List.dropWhile_sublist (l := l.reverse) (p := isWS)).subset h
  rwa [List.mem_reverse] at this

theorem mem_trim (s : List Char) (c : Char) (h : c ∈ trim s) : c ∈ s := by
  unfold trim at h
  have := mem_dropTrail _ c h
  exact (List.dropWhile_sublist (l := s) (p := isWS)).subset this

theorem dropWhile_allWS (a : List Char) (h : allWS a) : a.dropWhile isWS = [] :=
  List.dropWhile_eq_nil_iff.2 h

theorem trim_ws_left (a s : List Char) (ha : allWS a) : trim (a ++ s) = trim s := by
  unfold trim
  rw [List.dropWhile_append, dropWhile_allWS a ha]
  simp

theorem allWS_reverse (b : List Char) (hb : allWS b) : allWS b.reverse := by
  intro c hc
  exact hb c (List.mem_reverse.1 hc)

theorem dropTrail_ws_right (s b : List Char) (hb : allWS b) :
    dropTrail (s ++ b) = dropTrail s := by
  unfold dropTrail
  rw [List.reverse_append, List.dropWhile_append,
    dropWhile_allWS _ (allWS_reverse b hb)]
  simp

theorem trim_ws_right (s b : List Char) (hb : allWS b) :
    trim (s ++ b) = trim s := by
  unfold trim
  rw [List.dropWhile_append]
  by_cases hs : (s.dropWhile isWS).isEmpty
  · rw [if_pos hs, dropWhile_allWS b hb]
    rw [List.isEmpty_iff] at hs
    rw [hs]
  · rw [if_neg hs]
    exact dropTrail_ws_right _ b hb

theorem not_eq_mem_allWS (a : List Char) (ha : allWS a) : '=' ∉ a := by
  intro hm
  have := ha '=' hm
  simp [isWS] at this

theorem splitFirstEq_none_of_not_mem (s : List Char) (h : '=' ∉ s) :
    splitFirstEq s = none := by
  induction s with
  | nil => rfl
  | cons c cs ih =>
    have hc : c ≠ '=' := fun he => h (he ▸ List.mem_cons_self c cs)
    rw [splitFirstEq, if_neg hc, ih (fun hm => h (List.mem_cons_of_mem c hm))]

theorem splitFirstEq_append_eq (a b : List Char) (h : '=' ∉ a) :
    splitFirstEq (a ++ '=' :: b) = some (a, b) := by
  induction a with
  | nil => simp [splitFirstEq]
  | cons c cs ih =>
    have hc : c ≠ '=' := fun he => h (he ▸ List.mem_cons_self c cs)
    rw [List.cons_append, splitFirstEq, if_neg hc,
      ih (fun hm => h (List.mem_cons_of_mem c hm))]

theorem splitFirstEq_eq_some (s n v : List Char)
    (h : splitFirstEq s = some (n, v)) : s = n ++ '=' :: v ∧ '=' ∉ n := by
  induction s generalizing n with
  | nil => cases h
  | cons c cs ih =>
    rw [splitFirstEq] at h
    by_cases hc : c = '='
    · rw [if_pos hc] at h
      simp only [Option.some.injEq, Prod.mk.injEq] at h
      obtain ⟨h1, h2⟩ := h
      subst h1
      subst h2
      subst hc
      exact ⟨rfl, List.not_mem_nil '='⟩
    · rw [if_neg hc] at h
      cases hsp : splitFirstEq cs with
      | none => rw [hsp] at h; cases h
      | some nv =>
        obtain ⟨n', v'⟩ := nv
        rw [hsp] at h
        simp only [Option.some.injEq, Prod.mk.injEq] at h
        obtain ⟨h1, h2⟩ := h
        subst h1
        subst h2
        obtain ⟨hd, hm⟩ := ih n' hsp
        constructor
        · rw [hd]; rfl
        · intro hmm
          rcases List.mem_cons.1 hmm with h3 | h3
          · exact hc h3.symm
          · exact hm h3

theorem splitFirstEq_append_left_none (a u : List Char) (ha : '=' ∉ a) :
    splitFirstEq (a ++ u) =
      (splitFirstEq u).map (fun nv => (a ++ nv.1, nv.2)) := by
  induction a with
  | nil => simp
  | cons c cs ih =>
    have hc : c ≠ '=' := fun he => ha (he ▸ List.mem_cons_self c cs)
    rw [List.cons_append, splitFirstEq, if_neg hc,
      ih (fun hm => ha (List.mem_cons_of_mem c hm))]
    cases splitFirstEq u with
    | none => rfl
    | some nv => simp

theorem attrNameOf_ws_left (a u : List Char) (ha : allWS a) :
    attrNameOf (a ++ u) = attrNameOf u := by
  unfold attrNameOf
  rw [splitFirstEq_append_left_none a u (not_eq_mem_allWS a ha)]
  cases hsp : splitFirstEq u with
  | none => simp [trim_ws_left a u ha]
  | some nv =>
    obtain ⟨n, v⟩ := nv
    simp [trim_ws_left a n ha]

theorem attrNameOf_pair (rawN rawV : List Char) (h : '=' ∉ rawN) :
    attrNameOf (rawN ++ '=' :: rawV) = lowerStr (trim rawN) := by
  unfold attrNameOf
  rw [splitFirstEq_append_eq _ _ h]

theorem upToComma_no_comma (a : List Char) (h : ',' ∉ a) : upToComma a = a := by
  induction a with
  | nil => rfl
  | cons c cs ih =>
    have hc : c ≠ ',' := fun he => h (he ▸ List.mem_cons_self c cs)
    rw [upToComma, if_neg hc, ih (fun hm => h (List.mem_cons_of_mem c hm))]

theorem upToComma_append_no_comma (a b : List Char) (h : ',' ∉ a) :
    upToComma (a ++ b) = a ++ upToComma b := by
  induction a with
  | nil => rfl
  | cons c cs ih =>
    have hc : c ≠ ',' := fun he => h (he ▸ List.mem_cons_self c cs)
    rw [List.cons_append, upToComma, if_neg hc,
      ih (fun hm => h (List.mem_cons_of_mem c hm))]
    rfl

theorem upToComma_append_of_comma (a b : List Char) (h : ',' ∈ a) :
    upToComma (a ++ b) = upToComma a := by
  induction a with
  | nil => cases h
  | cons c cs ih =>
    by_cases hc : c = ','
    · rw [List.cons_append, upToComma, if_pos hc, upToComma, if_pos hc]
    · rcases List.mem_cons.1 h with h1 | h1
      · exact absurd h1.symm hc
      · rw [List.cons_append, upToComma, if_neg hc, upToComma, if_neg hc,
          ih h1]

theorem mem_upToComma (a : List Char) (c : Char) (h : c ∈ upToComma a) :
    c ∈ a := by
  induction a with
  | nil => cases h
  | cons x xs ih =>
    by_cases hx : x = ','
    · rw [upToComma, if_pos hx] at h; cases h
    · rw [upToComma, if_neg hx] at h
      rcases List.mem_cons.1 h with h1 | h1
      · exact h1 ▸ List.mem_cons_self x xs
      · exact List.mem_cons_of_mem x (ih h1)

theorem hasEq_eq_false (s : List Char) : hasEq s = false ↔ '=' ∉ s := by
  rw [← Bool.not_eq_true]
  simp [hasEq, List.any_eq_true]

theorem eqTokenAfter_no_eq (w : List Char) (h : '=' ∉ w) :
    eqTokenAfter w = false := by
  cases w with
  | nil => rfl
  | cons c cs =>
    simp only [eqTokenAfter]
    have he : hasEq (upToComma ((c :: cs).dropWhile isWS)) = false := by
      rw [hasEq_eq_false]
      intro hm
      exact h ((List.dropWhile_sublist (p := isWS)).subset
        (mem_upToComma _ _ hm))
    rw [he, Bool.and_false]

theorem eqTokenAfter_append_false (w ext : List Char)
    (h : eqTokenAfter (w ++ ext) = false) : eqTokenAfter w = false := by
  cases w with
  | nil => rfl
  | cons c cs =>
    rw [List.cons_append] at h
    simp only [eqTokenAfter] at h ⊢
    by_cases hc : isWS c
    · rw [hc, Bool.true_and] at h ⊢
      cases hdw : (c :: cs).dropWhile isWS with
      | nil => rw [upToComma]; rfl
      | cons d dw =>
        have happ : (c :: (cs ++ ext)).dropWhile isWS = (d :: dw) ++ ext := by
          have : (c :: cs) ++ ext = c :: (cs ++ ext) := rfl
          rw [← this, List.dropWhile_append, hdw]
          simp
        rw [happ] at h
        by_cases hcm : ',' ∈ (d :: dw)
        · rw [upToComma_append_of_comma _ _ hcm] at h
          exact h
        · rw [upToComma_append_no_comma _ _ hcm] at h
          rw [hasEq_eq_false] at h ⊢
          rw [upToComma_no_comma _ hcm]
          intro hm
          exact h (List.mem_append_left _ hm)
    · have hc' : isWS c = false := by
        cases hcc : isWS c
        · rfl
        · exact absurd hcc hc
      rw [hc', Bool.false_and]

theorem sepAt_false_of_eqTokenAfter (u w : List Char)
    (h : eqTokenAfter w = false) : sepAt u w = false := by
  rw [sepAt, h, Bool.and_false]

theorem sepAt_false_of_expires (u w : List Char)
    (h : attrNameOf u = ("expires").toList) : sepAt u w = false := by
  rw [sepAt, h]
  simp

theorem sepAt_append_false (u w ext : List Char)
    (h : sepAt u (w ++ ext) = false) : sepAt u w = false := by
  unfold sepAt at h ⊢
  cases hA : (attrNameOf u == ("expires").toList) with
  | true => simp
  | false =>
    rw [hA] at h
    simp only [Bool.not_false, Bool.true_and] at h ⊢
    exact eqTokenAfter_append_false w ext h

theorem hasEq_upToComma_allWS (b : List Char) (hb : allWS b) :
    hasEq (upToComma b) = false := by
  rw [hasEq_eq_false]
  intro hm
  have := hb '=' (mem_upToComma _ _ hm)
  simp [isWS] at this

theorem hasEq_upToComma_comma (r : List Char) :
    hasEq (upToComma (',' :: r)) = false := by
  rw [upToComma, if_pos rfl]
  rfl

/-- A piece has no comma that the separator heuristic would split at
(relative to the piece itself). -/
def PieceOK (p : List Char) : Prop :=
  ∀ u w, p = u ++ ',' :: w → sepAt u w = false

theorem PieceOK_nil : PieceOK [] := by
  intro u w h
  exact absurd h (by simp)

theorem findSplit_none_sound (s : List Char) :
    ∀ pr, findSplit pr s = none →
      ∀ u w, s = u ++ ',' :: w → sepAt (pr.reverse ++ u) w = false := by
  induction s with
  | nil =>
    intro pr _ u w hdec
    exact absurd hdec (by simp)
  | cons c cs ih =>
    intro pr hf u w hdec
    rw [findSplit] at hf
    by_cases hc : c = ','
    · rw [if_pos hc] at hf
      by_cases hsep : sepAt pr.reverse cs = true
      · rw [if_pos hsep] at hf; cases hf
      · rw [if_neg hsep] at hf
        cases u with
        | nil =>
          simp only [List.nil_append, List.cons.injEq] at hdec
          rw [List.append_nil, ← hdec.2]
          cases hb : sepAt pr.reverse cs
          · rfl
          · exact absurd hb hsep
        | cons x u' =>
          simp only [List.cons_append, List.cons.injEq] at hdec
          obtain ⟨hx, hcs⟩ := hdec
          have := ih (c :: pr) hf u' w hcs
          rw [List.reverse_cons, List.append_assoc] at this
          rw [← hx]
          simpa using this
    · rw [if_neg hc] at hf
      cases u with
      | nil =>
        simp only [List.nil_append, List.cons.injEq] at hdec
        exact absurd hdec.1 hc
      | cons x u' =>
        simp only [List.cons_append, List.cons.injEq] at hdec
        obtain ⟨hx, hcs⟩ := hdec
        have := ih (c :: pr) hf u' w hcs
        rw [List.reverse_cons, List.append_assoc] at this
        rw [← hx]
        simpa using this

theorem findSplit_none_complete (s : List Char) :
    ∀ pr, (∀ u w, s = u ++ ',' :: w → sepAt (pr.reverse ++ u) w = false) →
      findSplit pr s = none := by
  induction s with
  | nil => intro pr _; rfl
  | cons c cs ih =>
    intro pr h
    rw [findSplit]
    by_cases hc : c = ','
    · rw [if_pos hc]
      have hs : sepAt pr.reverse cs = false := by
        have := h [] cs (by rw [hc]; rfl)
        simpa using this
      rw [if_neg (by simp [hs])]
      refine ih (c :: pr) ?_
      intro u w hdec
      have := h (c :: u) w (by rw [hdec]; rfl)
      rw [List.reverse_cons, List.append_assoc]
      simpa using this
    · rw [if_neg hc]
      refine ih (c :: pr) ?_
      intro u w hdec
      have := h (c :: u) w (by rw [hdec]; rfl)
      rw [List.reverse_cons, List.append_assoc]
      simpa using this

theorem findSplit_some_sound (s : List Char) :
    ∀ pr u w, findSplit pr s = some (u, w) →
      ∃ u', u = pr.reverse ++ u' ∧ s = u' ++ ',' :: w ∧ sepAt u w = true ∧
        (∀ u₂ w₂, u' = u₂ ++ ',' :: w₂ →
          sepAt (pr.reverse ++ u₂) (w₂ ++ ',' :: w) = false) := by
  induction s with
  | nil => intro pr u w h; cases h
  | cons c cs ih =>
    intro pr u w h
    rw [findSplit] at h
    by_cases hc : c = ','
    · rw [if_pos hc] at h
      by_cases hsep : sepAt pr.reverse cs = true
      · rw [if_pos hsep] at h
        simp only [Option.some.injEq, Prod.mk.injEq] at h
        obtain ⟨h1, h2⟩ := h
        subst h1
        subst h2
        refine ⟨[], by simp, by rw [hc]; rfl, hsep, ?_⟩
        intro u₂ w₂ hdec
        exact absurd hdec.symm (by simp)
      · rw [if_neg hsep] at h
        obtain ⟨u', hu, hseq, hst, hprev⟩ := ih (c :: pr) u w h
        rw [List.reverse_cons] at hu
        refine ⟨c :: u', by rw [hu]; simp, by rw [hseq]; rfl, hst, ?_⟩
        intro u₂ w₂ hdec
        cases u₂ with
        | nil =>
          simp only [List.nil_append, List.cons.injEq] at hdec
          have hcs : cs = w₂ ++ ',' :: w := by rw [hseq, hdec.2]
          rw [List.append_nil, ← hcs]
          cases hb : sepAt pr.reverse cs
          · rfl
          · exact absurd hb hsep
        | cons x u₂' =>
          simp only [List.cons_append, List.cons.injEq] at hdec
          obtain ⟨hx, hrest⟩ := hdec
          have := hprev u₂' w₂ hrest
          rw [List.reverse_cons, List.append_assoc] at this
          rw [← hx]
          simpa using this
    · rw [if_neg hc] at h
      obtain ⟨u', hu, hseq, hst, hprev⟩ := ih (c :: pr) u w h
      rw [List.reverse_cons] at hu
      refine ⟨c :: u', by rw [hu]; simp, by rw [hseq]; rfl, hst, ?_⟩
      intro u₂ w₂ hdec
      cases u₂ with
      | nil =>
        simp only [List.nil_append, List.cons.injEq] at hdec
        exact absurd hdec.1 hc
      | cons x u₂' =>
        simp only [List.cons_append, List.cons.injEq] at hdec
        obtain ⟨hx, hrest⟩ := hdec
        have := hprev u₂' w₂ hrest
        rw [List.reverse_cons, List.append_assoc] at this
        rw [← hx]
        simpa using this

theorem splitSepF_pieces (fuel : Nat) :
    ∀ seg, seg.length ≤ fuel → ∀ p ∈ splitSepF fuel seg,
      PieceOK p ∧ p.Sublist seg := by
  induction fuel with
  | zero =>
    intro seg hl p hp
    have hseg : seg = [] := List.length_eq_zero.1 (Nat.le_zero.1 hl)
    subst hseg
    simp only [splitSepF, List.mem_singleton] at hp
    subst hp
    exact ⟨PieceOK_nil, List.Sublist.refl []⟩
  | succ fuel ih =>
    intro seg hl p hp
    rw [splitSepF] at hp
    cases hf : findSplit [] seg with
    | none =>
      rw [hf] at hp
      simp only [List.mem_singleton] at hp
      subst hp
      refine ⟨?_, List.Sublist.refl _⟩
      intro u w hdec
      have := findSplit_none_sound _ [] hf u w hdec
      simpa using this
    | some uw =>
      obtain ⟨u, w⟩ := uw
      rw [hf] at hp
      obtain ⟨u', hu, hseq, _, hprev⟩ := findSplit_some_sound seg [] u w hf
      simp only [List.reverse_nil, List.nil_append] at hu hprev
      subst hu
      rcases List.mem_cons.1 hp with hp1 | hp1
      · subst hp1
        refine ⟨?_, by rw [hseq]; exact List.sublist_append_left _ _⟩
        intro u₂ w₂ hdec
        exact sepAt_append_false _ _ (',' :: w) (hprev u₂ w₂ hdec)
      · have hwlen : w.length ≤ fuel := by
          have hlen : seg.length = u.length + (w.length + 1) := by
            rw [hseq]; simp [List.length_append]
          omega
        obtain ⟨hpok, hsub⟩ := ih w hwlen p hp1
        refine ⟨hpok, hsub.trans ?_⟩
        rw [hseq]
        exact (List.sublist_cons_self ',' w).trans
          (List.sublist_append_right u _)

theorem splitSepCommas_pieces (seg p : List Char)
    (hp : p ∈ splitSepCommas seg) : PieceOK p ∧ p.Sublist seg :=
  splitSepF_pieces seg.length seg (Nat.le_refl _) p hp

theorem splitSepCommas_eq_single (seg : List Char) (h : PieceOK seg) :
    splitSepCommas seg = [seg] := by
  unfold splitSepCommas
  cases hl : seg.length with
  | zero => rfl
  | succ n =>
    rw [splitSepF, findSplit_none_complete seg [] (by simpa using h)]

theorem listBeq_false_of_ne (x y : List Char) (h : x ≠ y) : (x == y) = false := by
  cases hb : (x == y)
  · rfl
  · exact absurd (eq_of_beq hb) h

theorem PieceOK_of_append_ws (p a b : List Char) (ha : allWS a) (hb : allWS b)
    (h : PieceOK (a ++ p ++ b)) : PieceOK p := by
  intro u w hdec
  have hdec2 : a ++ p ++ b = (a ++ u) ++ ',' :: (w ++ b) := by
    rw [hdec]; simp [List.append_assoc]
  have h1 := h (a ++ u) (w ++ b) hdec2
  have h2 := sepAt_append_false (a ++ u) w b h1
  unfold sepAt at h2 ⊢
  rw [attrNameOf_ws_left a u ha] at h2
  exact h2

theorem PieceOK_trim (p : List Char) (h : PieceOK p) : PieceOK (trim p) := by
  obtain ⟨a, b, ha, hb, hdec, _, _⟩ := trim_decomp p
  exact PieceOK_of_append_ws _ a b ha hb (hdec ▸ h)

/-- The value of a recognized non-Expires attribute never carries a comma
that the heuristic takes for a separator. -/
def ValOK (v : List Char) : Prop :=
  ∀ u w, v = u ++ ',' :: w → eqTokenAfter w = false

theorem ValOK_nil : ValOK [] := by
  intro u w h
  exact absurd h (by simp)

theorem ValOK_of_pair (rawN rawV : List Char) (hne : '=' ∉ rawN)
    (hexp : lowerStr (trim rawN) ≠ ("expires").toList)
    (h : PieceOK (rawN ++ '=' :: rawV)) : ValOK (trim rawV) := by
  obtain ⟨a, b, ha, hb, hdec, _, _⟩ := trim_decomp rawV
  intro u w hw
  have hdec2 : rawN ++ '=' :: rawV =
      (rawN ++ '=' :: (a ++ u)) ++ ',' :: (w ++ b) := by
    rw [hdec, hw]; simp [List.append_assoc]
  have hsep := h _ _ hdec2
  have hsep2 := sepAt_append_false _ w b hsep
  unfold sepAt at hsep2
  rw [attrNameOf_pair rawN (a ++ u) hne, listBeq_false_of_ne _ _ hexp,
    Bool.not_false, Bool.true_and] at hsep2
  exact hsep2

theorem append_eq_append_cons (a b u w : List Char) (ch : Char)
    (h : a ++ b = u ++ ch :: w) :
    (∃ w', a = u ++ ch :: w' ∧ w = w' ++ b) ∨
    (∃ u', u = a ++ u' ∧ b = u' ++ ch :: w) := by
  induction a generalizing u with
  | nil =>
    right
    exact ⟨u, rfl, by simpa using h⟩
  | cons x a' ih =>
    cases u with
    | nil =>
      left
      rw [List.cons_append] at h
      simp only [List.nil_append, List.cons.injEq] at h
      refine ⟨a', ?_, by rw [h.2]⟩
      simp [h.1]
    | cons y u' =>
      simp only [List.cons_append, List.cons.injEq] at h
      obtain ⟨hxy, hrest⟩ := h
      rcases ih u' hrest with ⟨w', h1, h2⟩ | ⟨u₂, h1, h2⟩
      · left
        exact ⟨w', by rw [List.cons_append, ← h1, hxy], h2⟩
      · right
        exact ⟨u₂, by rw [List.cons_append, ← h1, hxy], h2⟩

theorem hasEq_of_mem (l : List Char) (h : '=' ∈ l) : hasEq l = true := by
  rw [hasEq, List.any_eq_true]
  exact ⟨'=', h, by simp⟩

theorem eqTokenAfter_cons_not_ws (c : Char) (cs : List Char)
    (h : isWS c = false) : eqTokenAfter (c :: cs) = false := by
  simp [eqTokenAfter, h]

theorem lastNoWS_suffix (x y : List Char) (h : lastNoWS (x ++ y))
    (hy : y ≠ []) : lastNoWS y := by
  intro c hc
  apply h
  rw [List.getLast?_append, hc]
  rfl

theorem dropWhile_ne_nil_of_lastNoWS (l : List Char) (hl : l ≠ [])
    (h : lastNoWS l) : l.dropWhile isWS ≠ [] := by
  intro hcon
  have hall := List.dropWhile_eq_nil_iff.1 hcon
  cases hlast : l.getLast? with
  | none => exact hl (List.getLast?_eq_none_iff.1 hlast)
  | some c =>
    have hmem : c ∈ l := List.mem_of_mem_getLast? hlast
    have := h c hlast
    rw [hall c hmem] at this
    cases this

theorem PieceOK_nv (rawN rawV : List Char) (hne : '=' ∉ rawN)
    (h : PieceOK (rawN ++ '=' :: rawV)) :
    PieceOK (trim rawN ++ '=' :: trim rawV) := by
  obtain ⟨a, b, ha, hb, hdecN, hhN, hlN⟩ := trim_decomp rawN
  obtain ⟨a', b', ha', hb', hdecV, hhV, hlV⟩ := trim_decomp rawV
  have hneT : '=' ∉ trim rawN := fun hm => hne (mem_trim _ _ hm)
  intro u w hdec
  rcases append_eq_append_cons (trim rawN) ('=' :: trim rawV) u w ',' hdec with
    ⟨w', h1, h2⟩ | ⟨u', h1, h2⟩
  · -- the comma lies inside the (trimmed) name
    have horig : rawN ++ '=' :: rawV =
        (a ++ u) ++ ',' :: (w' ++ (b ++ '=' :: rawV)) := by
      conv_lhs => rw [hdecN, h1]
      simp [List.append_assoc]
    have hsep := h _ _ horig
    subst h2
    by_cases hexp : attrNameOf u = ("expires").toList
    · exact sepAt_false_of_expires _ _ hexp
    · unfold sepAt at hsep
      rw [attrNameOf_ws_left a u ha,
        listBeq_false_of_ne _ _ hexp, Bool.not_false, Bool.true_and] at hsep
      apply sepAt_false_of_eqTokenAfter
      cases hw' : w' with
      | nil =>
        exact eqTokenAfter_cons_not_ws '=' (trim rawV) (by decide)
      | cons c w'' =>
        subst hw'
        rw [List.cons_append] at hsep ⊢
        by_cases hcWS : isWS c = true
        · simp only [eqTokenAfter, hcWS, Bool.true_and] at hsep ⊢
          have hlw : lastNoWS (c :: w'') := by
            refine lastNoWS_suffix (u ++ [',']) (c :: w'') ?_ (by simp)
            rw [show (u ++ [',']) ++ (c :: w'') = trim rawN by rw [h1]; simp]
            exact hlN
          have hdwne : (c :: w'').dropWhile isWS ≠ [] :=
            dropWhile_ne_nil_of_lastNoWS _ (by simp) hlw
          cases hdw : (c :: w'').dropWhile isWS with
          | nil => exact absurd hdw hdwne
          | cons d dw =>
            have happ1 : ((c :: w'') ++ (b ++ '=' :: rawV)).dropWhile isWS =
                (d :: dw) ++ (b ++ '=' :: rawV) := by
              rw [List.dropWhile_append, hdw]; simp
            have happ2 : ((c :: w'') ++ '=' :: trim rawV).dropWhile isWS =
                (d :: dw) ++ '=' :: trim rawV := by
              rw [List.dropWhile_append, hdw]; simp
            rw [List.cons_append] at happ1 happ2
            rw [happ1] at hsep
            rw [happ2]
            by_cases hcm : ',' ∈ (d :: dw)
            · rw [upToComma_append_of_comma _ _ hcm] at hsep ⊢
              exact hsep
            · exfalso
              rw [upToComma_append_no_comma _ _ hcm,
                upToComma_append_no_comma _ _
                  (fun hmm => by
                    have := hb ',' hmm
                    simp [isWS] at this)] at hsep
              rw [show upToComma ('=' :: rawV) = '=' :: upToComma rawV by
                rw [upToComma, if_neg (by decide)]] at hsep
              rw [hasEq_of_mem _ (by simp)] at hsep
              cases hsep
        · have hcF : isWS c = false := by
            cases hcc : isWS c
            · rfl
            · exact absurd hcc hcWS
          exact eqTokenAfter_cons_not_ws c _ hcF
  · -- the comma lies inside the (trimmed) value
    cases u' with
    | nil =>
      rw [List.nil_append] at h2
      cases h2
    | cons x u'' =>
      rw [List.cons_append] at h2
      injection h2 with hx h2'
      subst hx
      have horig : rawN ++ '=' :: rawV =
          (rawN ++ '=' :: (a' ++ u'')) ++ ',' :: (w ++ b') := by
      -- rawV = a' ++ trim rawV ++ b' and trim rawV = u'' ++ ',' :: w
        conv_lhs => rw [hdecV, h2']
        simp [List.append_assoc]
      have hsep := h _ _ horig
      have hsep2 := sepAt_append_false _ w b' hsep
      rw [h1]
      unfold sepAt at hsep2 ⊢
      rw [attrNameOf_pair rawN (a' ++ u'') hne] at hsep2
      rw [attrNameOf_pair (trim rawN) u'' hneT, trim_idem]
      exact hsep2

theorem PieceOK_eq_cons (tok : List Char) (hne : '=' ∉ tok) :
    PieceOK ('=' :: trim tok) := by
  intro u w hdec
  cases u with
  | nil =>
    rw [List.nil_append] at hdec
    cases hdec
  | cons x u' =>
    rw [List.cons_append] at hdec
    injection hdec with hx hdec'
    apply sepAt_false_of_eqTokenAfter
    apply eqTokenAfter_no_eq
    intro hm
    apply hne
    apply mem_trim
    rw [hdec']
    exact List.mem_append_right _ (List.mem_cons_of_mem ',' hm)

theorem splitSemi_append (a b : List Char) (ha : ';' ∉ a) :
    splitSemi (a ++ ';' :: b) = a :: splitSemi b := by
  induction a with
  | nil => rw [List.nil_append, splitSemi, if_pos rfl]
  | cons c cs ih =>
    have hc : c ≠ ';' := fun he => ha (he ▸ List.mem_cons_self c cs)
    rw [List.cons_append, splitSemi, if_neg hc,
      ih (fun hm => ha (List.mem_cons_of_mem c hm))]

theorem mem_splitSemi_no_semi (s : List Char) :
    ∀ t ∈ splitSemi s, ';' ∉ t := by
  induction s with
  | nil =>
    intro t ht
    simp only [splitSemi, List.mem_singleton] at ht
    subst ht
    exact List.not_mem_nil ';'
  | cons c cs ih =>
    intro t ht
    rw [splitSemi] at ht
    by_cases hc : c = ';'
    · rw [if_pos hc] at ht
      rcases List.mem_cons.1 ht with h1 | h1
      · subst h1; exact List.not_mem_nil ';'
      · exact ih t h1
    · rw [if_neg hc] at ht
      cases hsp : splitSemi cs with
      | nil =>
        rw [hsp] at ht
        simp only [List.mem_singleton] at ht
        subst ht
        intro hm
        simp only [List.mem_singleton] at hm
        exact hc hm.symm
      | cons t' ts =>
        rw [hsp] at ht
        rcases List.mem_cons.1 ht with h1 | h1
        · subst h1
          intro hm
          rcases List.mem_cons.1 hm with h2 | h2
          · exact hc h2.symm
          · exact ih t' (by rw [hsp]; exact List.mem_cons_self _ _) h2
        · exact ih t (by rw [hsp]; exact List.mem_cons_of_mem _ h1)

theorem validSameSite_chars (ss : List Char) (h : validSameSite ss = true) :
    ∀ c ∈ ss, isWS c = false ∧ c ≠ ',' ∧ c ≠ ';' := by
  intro c hc
  have hmem : c.toLower ∈ lowerStr ss := List.mem_map_of_mem Char.toLower hc
  simp only [validSameSite, Bool.or_eq_true, beq_iff_eq] at h
  have hbad : ∀ d : Char,
      (d = ' ' ∨ d = '\t' ∨ d = '\n' ∨ d = '\r' ∨ d = ',' ∨ d = ';') →
      d.toLower ∉ lowerStr ss := by
    intro d hd hmm
    rcases h with (h1 | h1) | h1 <;> rw [h1] at hmm <;>
      rcases hd with rfl | rfl | rfl | rfl | rfl | rfl <;>
        exact absurd hmm (by decide)
  refine ⟨?_, ?_, ?_⟩
  · cases hw : isWS c with
    | false => rfl
    | true =>
      exfalso
      simp only [isWS, Bool.or_eq_true, decide_eq_true_eq] at hw
      rcases hw with ((rfl | rfl) | rfl) | rfl
      · exact hbad ' ' (by tauto) hmem
      · exact hbad '\t' (by tauto) hmem
      · exact hbad '\n' (by tauto) hmem
      · exact hbad '\r' (by tauto) hmem
  · rintro rfl
    exact hbad ',' (by tauto) hmem
  · rintro rfl
    exact hbad ';' (by tauto) hmem

theorem validSameSite_facts (ss : List Char) (h : validSameSite ss = true) :
    trim ss = ss ∧ ',' ∉ ss ∧ ';' ∉ ss ∧ ss ≠ [] := by
  have hch := validSameSite_chars ss h
  refine ⟨?_, ?_, ?_, ?_⟩
  · apply trim_eq_self
    · intro c hc
      exact (hch c (List.mem_of_mem_head? hc)).1
    · intro c hc
      exact (hch c (List.mem_of_mem_getLast? hc)).1
  · intro hm
    exact (hch ',' hm).2.1 rfl
  · intro hm
    exact (hch ';' hm).2.2 rfl
  · intro hss
    subst hss
    exact absurd h (by decide)

theorem dChar_class (d : Nat) :
    '0' ≤ dChar d ∧ dChar d ≤ '9' := by
  unfold dChar
  split <;> decide

theorem dChar_val (d : Nat) (h : d < 10) : (dChar d).toNat - 48 = d := by
  interval_cases d <;> decide

theorem digit_char_facts (c : Char) (h : '0' ≤ c ∧ c ≤ '9') :
    isWS c = false ∧ c ≠ ',' ∧ c ≠ ';' ∧ c ≠ '-' ∧ c ≠ '+' ∧ c ≠ '=' := by
  obtain ⟨h1, h2⟩ := h
  refine ⟨?_, ?_, ?_, ?_, ?_, ?_⟩
  · cases hw : isWS c with
    | false => rfl
    | true =>
      exfalso
      simp only [isWS, Bool.or_eq_true, decide_eq_true_eq] at hw
      rcases hw with ((rfl | rfl) | rfl) | rfl <;> exact absurd h1 (by decide)
  · rintro rfl; exact absurd h1 (by decide)
  · rintro rfl; exact absurd h2 (by decide)
  · rintro rfl; exact absurd h1 (by decide)
  · rintro rfl; exact absurd h1 (by decide)
  · rintro rfl; exact absurd h2 (by decide)

theorem natToStr_chars (n : Nat) (c : Char) (hc : c ∈ natToStr n) :
    '0' ≤ c ∧ c ≤ '9' := by
  rw [natToStr] at hc
  by_cases hn : n = 0
  · rw [if_pos hn] at hc
    simp only [List.mem_singleton] at hc
    subst hc
    exact ⟨Nat.le_refl _, by decide⟩
  · rw [if_neg hn] at hc
    rw [List.mem_reverse] at hc
    obtain ⟨d, _, hd⟩ := List.mem_map.1 hc
    rw [← hd]
    exact dChar_class d

theorem natToStr_ne_nil (n : Nat) : natToStr n ≠ [] := by
  rw [natToStr]
  by_cases hn : n = 0
  · rw [if_pos hn]; simp
  · rw [if_neg hn]
    simp [Nat.digits_ne_nil_iff_ne_zero.2 hn]

theorem natOfDigitsAux_append (acc : Nat) (xs ys : List Char) :
    natOfDigitsAux acc (xs ++ ys) =
      match natOfDigitsAux acc xs with
      | some a => natOfDigitsAux a ys
      | none => none := by
  induction xs generalizing acc with
  | nil => rfl
  | cons c cs ih =>
    rw [List.cons_append]
    simp only [natOfDigitsAux]
    by_cases hc : '0' ≤ c ∧ c ≤ '9'
    · rw [if_pos hc, if_pos hc]
      exact ih _
    · rw [if_neg hc, if_neg hc]

theorem natOfDigitsAux_digits (L : List Nat) (hL : ∀ d ∈ L, d < 10) :
    ∀ acc, natOfDigitsAux acc ((L.map dChar).reverse) =
      some (acc * 10 ^ L.length + Nat.ofDigits 10 L) := by
  induction L with
  | nil =>
    intro acc
    simp [natOfDigitsAux, Nat.ofDigits]
  | cons d L' ih =>
    intro acc
    rw [List.map_cons, List.reverse_cons, natOfDigitsAux_append]
    rw [ih (fun x hx => hL x (List.mem_cons_of_mem d hx)) acc]
    simp only [natOfDigitsAux]
    rw [if_pos (dChar_class d), dChar_val d (hL d (List.mem_cons_self d L'))]
    congr 1
    rw [Nat.ofDigits_cons, List.length_cons, pow_succ]
    ring

theorem natOfDigits_natToStr (n : Nat) : natOfDigits (natToStr n) = some n := by
  by_cases hn : n = 0
  · subst hn
    decide
  · rw [natToStr, if_neg hn]
    have hrne : ((Nat.digits 10 n).map dChar).reverse ≠ [] := by
      simp [Nat.digits_ne_nil_iff_ne_zero.2 hn]
    obtain ⟨c, cs, hcons⟩ := List.exists_cons_of_ne_nil hrne
    have heq : natOfDigits (((Nat.digits 10 n).map dChar).reverse) =
        natOfDigitsAux 0 (((Nat.digits 10 n).map dChar).reverse) := by
      rw [hcons]
      rfl
    rw [heq, natOfDigitsAux_digits (Nat.digits 10 n)
      (fun d hd => Nat.digits_lt_base (by norm_num) hd) 0]
    simp [Nat.ofDigits_digits]

theorem parseIntRaw_intToStr (m : Int) : parseIntRaw (intToStr m) = some m := by
  rw [intToStr]
  by_cases hm : m < 0
  · rw [if_pos hm, parseIntRaw, if_pos rfl, natOfDigits_natToStr]
    have hval : -(Int.ofNat m.natAbs) = m := by
      rw [Int.ofNat_eq_coe]; omega
    rw [Option.map_some', hval]
  · rw [if_neg hm]
    obtain ⟨c, cs, hcons⟩ := List.exists_cons_of_ne_nil (natToStr_ne_nil m.toNat)
    have hdig := natToStr_chars m.toNat c (by rw [hcons]; exact List.mem_cons_self _ _)
    have hfacts := digit_char_facts c hdig
    rw [hcons, parseIntRaw, if_neg hfacts.2.2.2.1, if_neg hfacts.2.2.2.2.1,
      ← hcons, natOfDigits_natToStr]
    have hval : Int.ofNat m.toNat = m := by
      rw [Int.ofNat_eq_coe]; omega
    rw [Option.map_some', hval]

theorem parseInt64_intToStr (m : Int) (h1 : -(2 ^ 63) ≤ m) (h2 : m < 2 ^ 63) :
    parseInt64 (intToStr m) = some m := by
  rw [parseInt64, parseIntRaw_intToStr, Option.some_bind, if_pos ⟨h1, h2⟩]

theorem parseInt64_range (s : List Char) (k : Int)
    (h : parseInt64 s = some k) : -(2 ^ 63) ≤ k ∧ k < 2 ^ 63 := by
  rw [parseInt64] at h
  cases hr : parseIntRaw s with
  | none => rw [hr] at h; cases h
  | some n =>
    rw [hr, Option.some_bind] at h
    by_cases hcond : -(2 ^ 63) ≤ n ∧ n < 2 ^ 63
    · rw [if_pos hcond] at h
      injection h with h1
      subst h1
      exact hcond
    · rw [if_neg hcond] at h
      cases h

theorem intToStr_chars (m : Int) (c : Char) (hc : c ∈ intToStr m) :
    c = '-' ∨ ('0' ≤ c ∧ c ≤ '9') := by
  rw [intToStr] at hc
  by_cases hm : m < 0
  · rw [if_pos hm] at hc
    rcases List.mem_cons.1 hc with h1 | h1
    · exact Or.inl h1
    · exact Or.inr (natToStr_chars _ c h1)
  · rw [if_neg hm] at hc
    exact Or.inr (natToStr_chars _ c hc)

theorem intToStr_facts (m : Int) (c : Char) (hc : c ∈ intToStr m) :
    isWS c = false ∧ c ≠ ',' ∧ c ≠ ';' := by
  rcases intToStr_chars m c hc with rfl | hd
  · exact ⟨by decide, by decide, by decide⟩
  · have := digit_char_facts c hd
    exact ⟨this.1, this.2.1, this.2.2.1⟩

theorem intToStr_ne_nil (m : Int) : intToStr m ≠ [] := by
  rw [intToStr]
  by_cases hm : m < 0
  · rw [if_pos hm]; simp
  · rw [if_neg hm]; exact natToStr_ne_nil _

theorem splitFirstEq_none_not_mem (s : List Char) (h : splitFirstEq s = none) :
    '=' ∉ s := by
  induction s with
  | nil => exact List.not_mem_nil '='
  | cons c cs ih =>
    rw [splitFirstEq] at h
    by_cases hc : c = '='
    · rw [if_pos hc] at h; cases h
    · rw [if_neg hc] at h
      cases hsp : splitFirstEq cs with
      | none =>
        intro hm
        rcases List.mem_cons.1 hm with h1 | h1
        · exact hc h1.symm
        · exact ih hsp h1
      | some nv => rw [hsp] at h; cases h

/-- The invariant satisfied by every cookie `parseCookies` produces; it is
strong enough to make full-mode serialization re-parse to the same record. -/
structure CookieWF (c : TCookie) : Prop where
  nameSemi : ';' ∉ c.name
  nameEq : '=' ∉ c.name
  nameTrim : trim c.name = c.name
  valueSemi : ';' ∉ c.value
  valueTrim : trim c.value = c.value
  nvOK : PieceOK (c.name ++ '=' :: c.value)
  domSemi : ';' ∉ c.domain
  domTrim : trim c.domain = c.domain
  domVal : ValOK c.domain
  pathSemi : ';' ∉ c.path
  pathTrim : trim c.path = c.path
  pathVal : ValOK c.path
  expSemi : ';' ∉ c.expirationDate
  expTrim : trim c.expirationDate = c.expirationDate
  ageLo : INT64_MIN ≤ c.maxAge
  ageHi : c.maxAge < 2 ^ 63
  ssOK : c.sameSite = [] ∨ validSameSite c.sameSite = true

theorem CookieWF.withSecure (c : TCookie) (b : Bool) (hW : CookieWF c) :
    CookieWF { c with secure := b } :=
  ⟨hW.nameSemi, hW.nameEq, hW.nameTrim, hW.valueSemi, hW.valueTrim, hW.nvOK,
    hW.domSemi, hW.domTrim, hW.domVal, hW.pathSemi, hW.pathTrim, hW.pathVal,
    hW.expSemi, hW.expTrim, hW.ageLo, hW.ageHi, hW.ssOK⟩

theorem CookieWF.withHttpOnly (c : TCookie) (b : Bool) (hW : CookieWF c) :
    CookieWF { c with httpOnly := b } :=
  ⟨hW.nameSemi, hW.nameEq, hW.nameTrim, hW.valueSemi, hW.valueTrim, hW.nvOK,
    hW.domSemi, hW.domTrim, hW.domVal, hW.pathSemi, hW.pathTrim, hW.pathVal,
    hW.expSemi, hW.expTrim, hW.ageLo, hW.ageHi, hW.ssOK⟩

theorem CookieWF.withExp (c : TCookie) (d : List Char) (hW : CookieWF c)
    (h1 : ';' ∉ d) (h2 : trim d = d) :
    CookieWF { c with expirationDate := d } :=
  ⟨hW.nameSemi, hW.nameEq, hW.nameTrim, hW.valueSemi, hW.valueTrim, hW.nvOK,
    hW.domSemi, hW.domTrim, hW.domVal, hW.pathSemi, hW.pathTrim, hW.pathVal,
    h1, h2, hW.ageLo, hW.ageHi, hW.ssOK⟩

theorem CookieWF.withDomain (c : TCookie) (v : List Char) (hW : CookieWF c)
    (h1 : ';' ∉ v) (h2 : trim v = v) (h3 : ValOK v) :
    CookieWF { c with domain := v } :=
  ⟨hW.nameSemi, hW.nameEq, hW.nameTrim, hW.valueSemi, hW.valueTrim, hW.nvOK,
    h1, h2, h3, hW.pathSemi, hW.pathTrim, hW.pathVal,
    hW.expSemi, hW.expTrim, hW.ageLo, hW.ageHi, hW.ssOK⟩

theorem CookieWF.withPath (c : TCookie) (v : List Char) (hW : CookieWF c)
    (h1 : ';' ∉ v) (h2 : trim v = v) (h3 : ValOK v) :
    CookieWF { c with path := v } :=
  ⟨hW.nameSemi, hW.nameEq, hW.nameTrim, hW.valueSemi, hW.valueTrim, hW.nvOK,
    hW.domSemi, hW.domTrim, hW.domVal, h1, h2, h3,
    hW.expSemi, hW.expTrim, hW.ageLo, hW.ageHi, hW.ssOK⟩

theorem CookieWF.withAge (c : TCookie) (k : Int) (hW : CookieWF c)
    (h1 : INT64_MIN ≤ k) (h2 : k < 2 ^ 63) :
    CookieWF { c with maxAge := k } :=
  ⟨hW.nameSemi, hW.nameEq, hW.nameTrim, hW.valueSemi, hW.valueTrim, hW.nvOK,
    hW.domSemi, hW.domTrim, hW.domVal, hW.pathSemi, hW.pathTrim, hW.pathVal,
    hW.expSemi, hW.expTrim, h1, h2, hW.ssOK⟩

theorem CookieWF.withSS (c : TCookie) (ss : List Char) (hW : CookieWF c)
    (h1 : validSameSite ss = true) :
    CookieWF { c with sameSite := ss } :=
  ⟨hW.nameSemi, hW.nameEq, hW.nameTrim, hW.valueSemi, hW.valueTrim, hW.nvOK,
    hW.domSemi, hW.domTrim, hW.domVal, hW.pathSemi, hW.pathTrim, hW.pathVal,
    hW.expSemi, hW.expTrim, hW.ageLo, hW.ageHi, Or.inr h1⟩

theorem INT64_MIN_lt : INT64_MIN < 2 ^ 63 := by
  rw [INT64_MIN]
  norm_num

theorem buildFirst_WF (tok : List Char) (hsemi : ';' ∉ tok)
    (hpok : PieceOK tok) : CookieWF (buildFirst tok) := by
  cases hsp : splitFirstEq tok with
  | none =>
    have hne : '=' ∉ tok := splitFirstEq_none_not_mem tok hsp
    have hbf : buildFirst tok = mkCookie [] (trim tok) := by
      unfold buildFirst
      rw [hsp]
    rw [hbf]
    exact
      { nameSemi := List.not_mem_nil ';'
        nameEq := List.not_mem_nil '='
        nameTrim := trim_nil
        valueSemi := fun hm => hsemi (mem_trim _ _ hm)
        valueTrim := trim_idem tok
        nvOK := by
          show PieceOK ([] ++ '=' :: trim tok)
          rw [List.nil_append]
          exact PieceOK_eq_cons tok hne
        domSemi := List.not_mem_nil ';'
        domTrim := trim_nil
        domVal := ValOK_nil
        pathSemi := List.not_mem_nil ';'
        pathTrim := trim_nil
        pathVal := ValOK_nil
        expSemi := List.not_mem_nil ';'
        expTrim := trim_nil
        ageLo := le_refl INT64_MIN
        ageHi := INT64_MIN_lt
        ssOK := Or.inl rfl }
  | some nv =>
    obtain ⟨rawN, rawV⟩ := nv
    obtain ⟨hdec, hne⟩ := splitFirstEq_eq_some tok rawN rawV hsp
    have hbf : buildFirst tok = mkCookie (trim rawN) (trim rawV) := by
      unfold buildFirst
      rw [hsp]
    rw [hbf]
    subst hdec
    exact
      { nameSemi := fun hm => hsemi (List.mem_append_left _ (mem_trim _ _ hm))
        nameEq := fun hm => hne (mem_trim _ _ hm)
        nameTrim := trim_idem rawN
        valueSemi := fun hm => hsemi
          (List.mem_append_right _ (List.mem_cons_of_mem '=' (mem_trim _ _ hm)))
        valueTrim := trim_idem rawV
        nvOK := PieceOK_nv rawN rawV hne hpok
        domSemi := List.not_mem_nil ';'
        domTrim := trim_nil
        domVal := ValOK_nil
        pathSemi := List.not_mem_nil ';'
        pathTrim := trim_nil
        pathVal := ValOK_nil
        expSemi := List.not_mem_nil ';'
        expTrim := trim_nil
        ageLo := le_refl INT64_MIN
        ageHi := INT64_MIN_lt
        ssOK := Or.inl rfl }

theorem applyAttr_WF (c : TCookie) (tok : List Char) (hW : CookieWF c)
    (hsemi : ';' ∉ tok) (hpok : PieceOK tok) : CookieWF (applyAttr c tok) := by
  unfold applyAttr
  cases hsp : splitFirstEq tok with
  | none =>
    simp only [hsp]
    by_cases h1 : lowerStr (trim tok) = ("secure").toList
    · rw [if_pos h1]
      exact hW.withSecure c true
    · rw [if_neg h1]
      by_cases h2 : lowerStr (trim tok) = ("httponly").toList
      · rw [if_pos h2]
        exact hW.withHttpOnly c true
      · rw [if_neg h2]
        exact hW
  | some nv =>
    obtain ⟨rawN, rawV⟩ := nv
    obtain ⟨hdec, hne⟩ := splitFirstEq_eq_some tok rawN rawV hsp
    simp only [hsp]
    have hsemiV : ';' ∉ trim rawV := fun hm => hsemi
      (by rw [hdec]
          exact List.mem_append_right _
            (List.mem_cons_of_mem '=' (mem_trim _ _ hm)))
    have hpok2 : PieceOK (rawN ++ '=' :: rawV) := hdec ▸ hpok
    by_cases h1 : lowerStr (trim rawN) = ("expires").toList
    · rw [if_pos h1]
      exact hW.withExp c _ hsemiV (trim_idem rawV)
    · rw [if_neg h1]
      have hval : ValOK (trim rawV) := ValOK_of_pair rawN rawV hne h1 hpok2
      by_cases h2 : lowerStr (trim rawN) = ("max-age").toList
      · rw [if_pos h2]
        cases hpi : parseInt64 (trim rawV) with
        | some k =>
          exact hW.withAge c k (parseInt64_range _ k hpi).1
            (parseInt64_range _ k hpi).2
        | none => exact hW
      · rw [if_neg h2]
        by_cases h3 : lowerStr (trim rawN) = ("domain").toList
        · rw [if_pos h3]
          exact hW.withDomain c _ hsemiV (trim_idem rawV) hval
        · rw [if_neg h3]
          by_cases h4 : lowerStr (trim rawN) = ("path").toList
          · rw [if_pos h4]
            exact hW.withPath c _ hsemiV (trim_idem rawV) hval
          · rw [if_neg h4]
            by_cases h5 : lowerStr (trim rawN) = ("secure").toList
            · rw [if_pos h5]
              exact hW.withSecure c true
            · rw [if_neg h5]
              by_cases h6 : lowerStr (trim rawN) = ("httponly").toList
              · rw [if_pos h6]
                exact hW.withHttpOnly c true
              · rw [if_neg h6]
                by_cases h7 : lowerStr (trim rawN) = ("samesite").toList
                · rw [if_pos h7]
                  unfold TCookie.setSameSite
                  by_cases hv : validSameSite (trim rawV) = true
                  · rw [if_pos hv]
                    exact hW.withSS c _ hv
                  · rw [if_neg hv]
                    exact hW
                · rw [if_neg h7]
                  exact hW

theorem mem_groupTagged (l : List (Bool × List Char)) :
    ∀ cur g, g ∈ groupTagged cur l → ∀ t ∈ g, t ∈ cur ∨ ∃ b, (b, t) ∈ l := by
  induction l with
  | nil =>
    intro cur g hg t ht
    simp only [groupTagged, List.mem_singleton] at hg
    subst hg
    exact Or.inl (List.mem_reverse.1 ht)
  | cons bp rest ih =>
    intro cur g hg t ht
    obtain ⟨b, p⟩ := bp
    rw [groupTagged] at hg
    by_cases hb : b = true
    · subst hb
      rw [if_pos rfl] at hg
      rcases List.mem_cons.1 hg with h1 | h1
      · subst h1
        exact Or.inl (List.mem_reverse.1 ht)
      · rcases ih [p] g h1 t ht with h2 | ⟨b', h2⟩
        · simp only [List.mem_singleton] at h2
          subst h2
          exact Or.inr ⟨true, List.mem_cons_self _ _⟩
        · exact Or.inr ⟨b', List.mem_cons_of_mem _ h2⟩
    · have hbf : b = false := by
        cases b
        · rfl
        · exact absurd rfl hb
      subst hbf
      rw [if_neg (by simp)] at hg
      rcases ih (p :: cur) g hg t ht with h2 | ⟨b', h2⟩
      · rcases List.mem_cons.1 h2 with h3 | h3
        · subst h3
          exact Or.inr ⟨false, List.mem_cons_self _ _⟩
        · exact Or.inl h3
      · exact Or.inr ⟨b', List.mem_cons_of_mem _ h2⟩

theorem mem_tagPieces (segs : List (List Char)) :
    ∀ b t, (b, t) ∈ tagPieces segs → ∃ seg ∈ segs, t ∈ splitSepCommas seg := by
  induction segs with
  | nil => intro b t ht; cases ht
  | cons seg rest ih =>
    intro b t ht
    rw [tagPieces] at ht
    rcases List.mem_append.1 ht with h1 | h1
    · refine ⟨seg, List.mem_cons_self _ _, ?_⟩
      cases hsp : splitSepCommas seg with
      | nil => rw [hsp] at h1; cases h1
      | cons p ps =>
        rw [hsp] at h1
        rcases List.mem_cons.1 h1 with h2 | h2
        · rw [Prod.mk.injEq] at h2
          rw [h2.2]
          exact List.mem_cons_self _ _
        · obtain ⟨q, hq, hqt⟩ := List.mem_map.1 h2
          rw [Prod.mk.injEq] at hqt
          rw [← hqt.2]
          exact List.mem_cons_of_mem _ hq
    · obtain ⟨seg', hs, hm⟩ := ih b t h1
      exact ⟨seg', List.mem_cons_of_mem _ hs, hm⟩

theorem foldl_applyAttr_WF (toks : List (List Char)) :
    ∀ c, CookieWF c → (∀ t ∈ toks, ';' ∉ t ∧ PieceOK t) →
      CookieWF (toks.foldl applyAttr c) := by
  induction toks with
  | nil => intro c hW _; exact hW
  | cons t ts ih =>
    intro c hW hfacts
    rw [List.foldl_cons]
    exact ih _
      (applyAttr_WF c t hW (hfacts t (List.mem_cons_self _ _)).1
        (hfacts t (List.mem_cons_self _ _)).2)
      (fun t' ht' => hfacts t' (List.mem_cons_of_mem _ ht'))

/-- Every cookie produced by `parseCookies` satisfies the re-serialization
invariant. -/
theorem parseCookies_WF (s : List Char) (c : TCookie)
    (hc : c ∈ parseCookies s) : CookieWF c := by
  unfold parseCookies at hc
  obtain ⟨g, hg, hbuild⟩ := List.mem_filterMap.1 hc
  have htokfacts : ∀ t ∈ g, ';' ∉ t ∧ PieceOK t := by
    intro t ht
    rcases mem_groupTagged _ [] g hg t ht with h1 | ⟨b, h1⟩
    · cases h1
    · obtain ⟨seg, hseg, hmem⟩ := mem_tagPieces _ b t h1
      obtain ⟨hpok, hsub⟩ := splitSepCommas_pieces seg t hmem
      have hsemi_seg := mem_splitSemi_no_semi s seg hseg
      exact ⟨fun hm => hsemi_seg (hsub.subset hm), hpok⟩
  unfold buildCookie at hbuild
  by_cases hall : (g.map trim).all (fun t => t == []) = true
  · rw [if_pos hall] at hbuild
    cases hbuild
  · rw [if_neg hall] at hbuild
    cases hts : g.map trim with
    | nil =>
      rw [hts] at hbuild
      cases hbuild
    | cons t0 rest =>
      rw [hts] at hbuild
      injection hbuild with hbuild
      have hfacts2 : ∀ t ∈ (t0 :: rest), ';' ∉ t ∧ PieceOK t := by
        intro t ht
        rw [← hts] at ht
        obtain ⟨p, hp, hpt⟩ := List.mem_map.1 ht
        obtain ⟨hs1, hs2⟩ := htokfacts p hp
        subst hpt
        exact ⟨fun hm => hs1 (mem_trim _ _ hm), PieceOK_trim p hs2⟩
      rw [← hbuild]
      exact foldl_applyAttr_WF rest _
        (buildFirst_WF t0 (hfacts2 t0 (List.mem_cons_self _ _)).1
          (hfacts2 t0 (List.mem_cons_self _ _)).2)
        (fun t ht => hfacts2 t (List.mem_cons_of_mem _ ht))

/-- Join byte sequences with a single `;`. -/
def joinSemi : List (List Char) → List Char
  | [] => []
  | [x] => x
  | x :: y :: rest => x ++ ';' :: joinSemi (y :: rest)

/-- The `;`-segments of a full-mode serialized cookie (each non-first
segment carries the space that follows the `;` of the wire form). -/
def serialSegs (c : TCookie) : List (List Char) :=
  [c.name ++ '=' :: c.value]
    ++ (if c.expirationDate = [] then []
        else [(" Expires=").toList ++ c.expirationDate])
    ++ (if c.maxAge = INT64_MIN then []
        else [(" Max-Age=").toList ++ intToStr c.maxAge])
    ++ (if c.domain = [] then [] else [(" Domain=").toList ++ c.domain])
    ++ (if c.path = [] then [] else [(" Path=").toList ++ c.path])
    ++ (if c.secure then [(" Secure").toList] else [])
    ++ (if c.httpOnly then [(" HttpOnly").toList] else [])
    ++ (if c.sameSite = [] then []
        else [(" SameSite=").toList ++ c.sameSite])

theorem joinSemi_cons (x : List Char) (rest : List (List Char)) :
    joinSemi (x :: rest) =
      x ++ (rest.map (fun y => ';' :: y)).flatten := by
  induction rest generalizing x with
  | nil => simp [joinSemi]
  | cons y ys ih => simp [joinSemi, ih y, List.append_assoc]

theorem toRawForm_eq_joinSemi (c : TCookie) :
    c.toRawForm true = joinSemi (serialSegs c) := by
  have hExp : ("; Expires=").toList = ';' :: (" Expires=").toList := rfl
  have hMax : ("; Max-Age=").toList = ';' :: (" Max-Age=").toList := rfl
  have hDom : ("; Domain=").toList = ';' :: (" Domain=").toList := rfl
  have hPath : ("; Path=").toList = ';' :: (" Path=").toList := rfl
  have hSec : ("; Secure").toList = ';' :: (" Secure").toList := rfl
  have hHo : ("; HttpOnly").toList = ';' :: (" HttpOnly").toList := rfl
  have hSS : ("; SameSite=").toList = ';' :: (" SameSite=").toList := rfl
  unfold TCookie.toRawForm serialSegs
  simp only [if_true, List.append_assoc, List.cons_append]
  rw [joinSemi_cons]
  simp only [List.map_append, List.flatten_append,
    apply_ite (List.map (fun y => ';' :: y)), apply_ite List.flatten,
    List.map_cons, List.map_nil, List.flatten_cons, List.flatten_nil,
    List.append_nil, List.nil_append]
  rw [hExp, hMax, hDom, hPath, hSec, hHo, hSS]
  simp [List.append_assoc]

theorem splitSemi_joinSemi (segs : List (List Char)) :
    segs ≠ [] → (∀ seg ∈ segs, ';' ∉ seg) →
      splitSemi (joinSemi segs) = segs := by
  induction segs with
  | nil => intro hne _; exact absurd rfl hne
  | cons x rest ih =>
    intro _ h
    cases rest with
    | nil =>
      show splitSemi x = [x]
      exact splitSemi_no_semi x
        (fun ch hch heq => (h x (List.mem_cons_self _ _)) (heq ▸ hch))
    | cons y rest' =>
      rw [joinSemi, splitSemi_append x _ (h x (List.mem_cons_self _ _)),
        ih (by simp) (fun seg hs => h seg (List.mem_cons_of_mem _ hs))]

theorem ValOK_of_no_comma (v : List Char) (h : ',' ∉ v) : ValOK v := by
  intro u w hdec
  have hm : ',' ∈ v := by
    rw [hdec]
    exact List.mem_append_right _ (List.mem_cons_self _ _)
  exact absurd hm h

theorem PieceOK_val_seg (pre v : List Char) (hval : ValOK v)
    (hcm : ',' ∉ pre) : PieceOK (pre ++ v) := by
  intro u w hdec
  rcases append_eq_append_cons pre v u w ',' hdec with ⟨w', h1, _⟩ |
    ⟨u', _, h2⟩
  · have hm : ',' ∈ pre := by
      rw [h1]
      exact List.mem_append_right _ (List.mem_cons_self _ _)
    exact absurd hm hcm
  · exact sepAt_false_of_eqTokenAfter _ _ (hval u' w h2)

theorem PieceOK_expires_seg (d : List Char) :
    PieceOK ((" Expires=").toList ++ d) := by
  intro u w hdec
  rcases append_eq_append_cons ((" Expires=").toList) d u w ',' hdec with
    ⟨w', h1, _⟩ | ⟨u', h1, _⟩
  · have hm : ',' ∈ (" Expires=").toList := by
      rw [h1]
      exact List.mem_append_right _ (List.mem_cons_self _ _)
    exact absurd hm (by decide)
  · rw [h1]
    apply sepAt_false_of_expires
    rw [show (" Expires=").toList ++ u' = (" Expires").toList ++ '=' :: u'
      from rfl]
    rw [attrNameOf_pair _ _ (by decide)]
    decide

theorem mem_opt_singleton (P : Prop) [Decidable P] (x seg : List Char)
    (h : seg ∈ (if P then ([] : List (List Char)) else [x])) :
    seg = x ∧ ¬P := by
  by_cases hp : P
  · rw [if_pos hp] at h; cases h
  · rw [if_neg hp] at h
    simp only [List.mem_singleton] at h
    exact ⟨h, hp⟩

theorem mem_opt_singleton' (P : Prop) [Decidable P] (x seg : List Char)
    (h : seg ∈ (if P then [x] else ([] : List (List Char)))) :
    seg = x ∧ P := by
  by_cases hp : P
  · rw [if_pos hp] at h
    simp only [List.mem_singleton] at h
    exact ⟨h, hp⟩
  · rw [if_neg hp] at h; cases h

theorem tagPieces_singles (segs : List (List Char))
    (h : ∀ seg ∈ segs, splitSepCommas seg = [seg]) :
    tagPieces segs = segs.map (fun seg => (false, seg)) := by
  induction segs with
  | nil => rfl
  | cons seg rest ih =>
    rw [tagPieces, h seg (List.mem_cons_self _ _),
      ih (fun s hs => h s (List.mem_cons_of_mem _ hs))]
    rfl

theorem groupTagged_singles (segs : List (List Char)) :
    ∀ cur, groupTagged cur (segs.map (fun seg => (false, seg))) =
      [cur.reverse ++ segs] := by
  induction segs with
  | nil =>
    intro cur
    rw [List.map_nil, groupTagged, List.append_nil]
  | cons seg rest ih =>
    intro cur
    rw [List.map_cons, groupTagged, if_neg (by simp), ih (seg :: cur),
      List.reverse_cons, List.append_assoc]
    rfl

theorem lastNoWS_append_right (x y : List Char) (hy : y ≠ [])
    (h : lastNoWS y) : lastNoWS (x ++ y) := by
  intro c hc
  apply h
  rw [List.getLast?_append] at hc
  cases hyl : y.getLast? with
  | none => exact absurd (List.getLast?_eq_none_iff.1 hyl) hy
  | some d =>
    rw [hyl] at hc
    exact hc

theorem headLast_of_trimmed (s : List Char) (h : trim s = s) :
    headNoWS s ∧ lastNoWS s := headNoWS_of_trim_eq s h

theorem trim_space_seg (x : List Char) (hh : headNoWS x) (hl : lastNoWS x) :
    trim (' ' :: x) = x := by
  unfold trim
  rw [List.dropWhile_cons_of_pos (by decide),
    dropWhile_eq_self_of_headNoWS x hh, dropTrail_eq_self_of_lastNoWS x hl]

theorem lastNoWS_eq_singleton : lastNoWS [('=' : Char)] := by
  intro c hc
  rw [show ([('=' : Char)]).getLast? = some '=' from rfl] at hc
  injection hc with hc
  rw [← hc]
  decide

theorem trim_nv (nm v : List Char) (hn : trim nm = nm) (hv : trim v = v) :
    trim (nm ++ '=' :: v) = nm ++ '=' :: v := by
  apply trim_eq_self
  · cases nm with
    | nil =>
      intro c hc
      rw [List.nil_append] at hc
      injection hc with hc
      rw [← hc]
      decide
    | cons a nm' =>
      intro c hc
      rw [List.cons_append] at hc
      injection hc with hc
      rw [← hc]
      exact (headLast_of_trimmed _ hn).1 a rfl
  · cases v with
    | nil =>
      exact lastNoWS_append_right nm [('=' : Char)] (by simp) lastNoWS_eq_singleton
    | cons y ys =>
      apply lastNoWS_append_right nm ('=' :: y :: ys) (by simp)
      intro c hc
      rw [List.getLast?_cons_cons] at hc
      exact (headLast_of_trimmed _ hv).2 c hc

theorem headNoWS_cons (a : Char) (l : List Char) (h : isWS a = false) :
    headNoWS (a :: l) := by
  intro c hc
  injection hc with hc
  rw [← hc]
  exact h

theorem trim_attr_tok (x d : List Char) (hx : headNoWS x) (hxne : x ≠ [])
    (hd : lastNoWS d) (hdne : d ≠ []) : trim (' ' :: (x ++ d)) = x ++ d := by
  apply trim_space_seg
  · exact headNoWS_append_left x d hx hxne
  · exact lastNoWS_append_right x d hdne hd

theorem trim_intToStr (m : Int) : trim (intToStr m) = intToStr m := by
  apply trim_eq_self
  · intro c hc
    exact (intToStr_facts m c (List.mem_of_mem_head? hc)).1
  · intro c hc
    exact (intToStr_facts m c (List.mem_of_mem_getLast? hc)).1

theorem applyAttr_expires (c : TCookie) (d : List Char) :
    applyAttr c (("Expires").toList ++ '=' :: d) =
      { c with expirationDate := trim d } := by
  unfold applyAttr
  simp only [splitFirstEq_append_eq (("Expires").toList) d (by decide)]
  rw [if_pos (by decide)]

theorem applyAttr_maxage (c : TCookie) (m : Int) (h1 : INT64_MIN ≤ m)
    (h2 : m < 2 ^ 63) :
    applyAttr c (("Max-Age").toList ++ '=' :: intToStr m) =
      { c with maxAge := m } := by
  unfold applyAttr
  simp only [splitFirstEq_append_eq (("Max-Age").toList) _ (by decide)]
  rw [if_neg (by decide), if_pos (by decide), trim_intToStr m,
    parseInt64_intToStr m h1 h2]

theorem applyAttr_domain (c : TCookie) (v : List Char) :
    applyAttr c (("Domain").toList ++ '=' :: v) =
      { c with domain := trim v } := by
  unfold applyAttr
  simp only [splitFirstEq_append_eq (("Domain").toList) v (by decide)]
  rw [if_neg (by decide), if_neg (by decide), if_pos (by decide)]

theorem applyAttr_path (c : TCookie) (v : List Char) :
    applyAttr c (("Path").toList ++ '=' :: v) =
      { c with path := trim v } := by
  unfold applyAttr
  simp only [splitFirstEq_append_eq (("Path").toList) v (by decide)]
  rw [if_neg (by decide), if_neg (by decide), if_neg (by decide),
    if_pos (by decide)]

theorem applyAttr_secure_tok (c : TCookie) :
    applyAttr c (("Secure").toList) = { c with secure := true } := by
  unfold applyAttr
  simp only [show splitFirstEq (("Secure").toList) = none from by decide]
  rw [if_pos (by decide)]

theorem applyAttr_httponly_tok (c : TCookie) :
    applyAttr c (("HttpOnly").toList) = { c with httpOnly := true } := by
  unfold applyAttr
  simp only [show splitFirstEq (("HttpOnly").toList) = none from by decide]
  rw [if_neg (by decide), if_pos (by decide)]

theorem applyAttr_samesite (c : TCookie) (ss : List Char)
    (hv : validSameSite ss = true) :
    applyAttr c (("SameSite").toList ++ '=' :: ss) =
      { c with sameSite := ss } := by
  unfold applyAttr
  simp only [splitFirstEq_append_eq (("SameSite").toList) ss (by decide)]
  rw [if_neg (by decide), if_neg (by decide), if_neg (by decide),
    if_neg (by decide), if_neg (by decide), if_neg (by decide),
    if_pos (by decide), (validSameSite_facts ss hv).1]
  unfold TCookie.setSameSite
  rw [if_pos hv]

theorem headNoWS_of_head (l : List Char) (a : Char) (hl : l.head? = some a)
    (ha : isWS a = false) : headNoWS l := by
  intro c hc
  rw [hl] at hc
  injection hc with hc
  rw [← hc]
  exact ha

theorem buildCookie_serialSegs (c : TCookie) (hW : CookieWF c) :
    buildCookie (serialSegs c) = some c := by
  have hA : (if c.expirationDate = [] then ([] : List (List Char))
      else [(" Expires=").toList ++ c.expirationDate]).map trim =
      (if c.expirationDate = [] then []
        else [("Expires=").toList ++ c.expirationDate]) := by
    by_cases hp : c.expirationDate = []
    · rw [if_pos hp, if_pos hp]
      rfl
    · rw [if_neg hp, if_neg hp, List.map_cons, List.map_nil]
      rw [show (" Expires=").toList ++ c.expirationDate =
        ' ' :: (("Expires=").toList ++ c.expirationDate) from rfl]
      rw [trim_attr_tok _ _
        (headNoWS_of_head (("Expires=").toList) 'E' rfl (by decide))
        (by simp) (headLast_of_trimmed _ hW.expTrim).2 hp]
  have hB : (if c.maxAge = INT64_MIN then ([] : List (List Char))
      else [(" Max-Age=").toList ++ intToStr c.maxAge]).map trim =
      (if c.maxAge = INT64_MIN then []
        else [("Max-Age=").toList ++ intToStr c.maxAge]) := by
    by_cases hp : c.maxAge = INT64_MIN
    · rw [if_pos hp, if_pos hp]
      rfl
    · rw [if_neg hp, if_neg hp, List.map_cons, List.map_nil]
      rw [show (" Max-Age=").toList ++ intToStr c.maxAge =
        ' ' :: (("Max-Age=").toList ++ intToStr c.maxAge) from rfl]
      rw [trim_attr_tok _ _
        (headNoWS_of_head (("Max-Age=").toList) 'M' rfl (by decide))
        (by simp) (headLast_of_trimmed _ (trim_intToStr c.maxAge)).2
        (intToStr_ne_nil c.maxAge)]
  have hC : (if c.domain = [] then ([] : List (List Char))
      else [(" Domain=").toList ++ c.domain]).map trim =
      (if c.domain = [] then [] else [("Domain=").toList ++ c.domain]) := by
    by_cases hp : c.domain = []
    · rw [if_pos hp, if_pos hp]
      rfl
    · rw [if_neg hp, if_neg hp, List.map_cons, List.map_nil]
      rw [show (" Domain=").toList ++ c.domain =
        ' ' :: (("Domain=").toList ++ c.domain) from rfl]
      rw [trim_attr_tok _ _
        (headNoWS_of_head (("Domain=").toList) 'D' rfl (by decide))
        (by simp) (headLast_of_trimmed _ hW.domTrim).2 hp]
  have hD : (if c.path = [] then ([] : List (List Char))
      else [(" Path=").toList ++ c.path]).map trim =
      (if c.path = [] then [] else [("Path=").toList ++ c.path]) := by
    by_cases hp : c.path = []
    · rw [if_pos hp, if_pos hp]
      rfl
    · rw [if_neg hp, if_neg hp, List.map_cons, List.map_nil]
      rw [show (" Path=").toList ++ c.path =
        ' ' :: (("Path=").toList ++ c.path) from rfl]
      rw [trim_attr_tok _ _
        (headNoWS_of_head (("Path=").toList) 'P' rfl (by decide))
        (by simp) (headLast_of_trimmed _ hW.pathTrim).2 hp]
  have hE : (if c.secure then [(" Secure").toList]
      else ([] : List (List Char))).map trim =
      (if c.secure then [("Secure").toList] else []) := by
    cases hsec : c.secure
    · rw [if_neg (by simp), if_neg (by simp)]
      rfl
    · rw [if_pos rfl, if_pos rfl, List.map_cons, List.map_nil]
      rw [show trim ((" Secure").toList) = ("Secure").toList from by decide]
  have hF : (if c.httpOnly then [(" HttpOnly").toList]
      else ([] : List (List Char))).map trim =
      (if c.httpOnly then [("HttpOnly").toList] else []) := by
    cases hho : c.httpOnly
    · rw [if_neg (by simp), if_neg (by simp)]
      rfl
    · rw [if_pos rfl, if_pos rfl, List.map_cons, List.map_nil]
      rw [show trim ((" HttpOnly").toList) = ("HttpOnly").toList from by
        decide]
  have hG : (if c.sameSite = [] then ([] : List (List Char))
      else [(" SameSite=").toList ++ c.sameSite]).map trim =
      (if c.sameSite = [] then []
        else [("SameSite=").toList ++ c.sameSite]) := by
    by_cases hp : c.sameSite = []
    · rw [if_pos hp, if_pos hp]
      rfl
    · have hvalid : validSameSite c.sameSite = true := hW.ssOK.resolve_left hp
      rw [if_neg hp, if_neg hp, List.map_cons, List.map_nil]
      rw [show (" SameSite=").toList ++ c.sameSite =
        ' ' :: (("SameSite=").toList ++ c.sameSite) from rfl]
      rw [trim_attr_tok _ _
        (headNoWS_of_head (("SameSite=").toList) 'S' rfl (by decide))
        (by simp)
        (headLast_of_trimmed _ (validSameSite_facts _ hvalid).1).2 hp]
  have hts : (serialSegs c).map trim =
      (c.name ++ '=' :: c.value) ::
        ((if c.expirationDate = [] then []
            else [("Expires=").toList ++ c.expirationDate])
          ++ (if c.maxAge = INT64_MIN then []
              else [("Max-Age=").toList ++ intToStr c.maxAge])
          ++ (if c.domain = [] then []
              else [("Domain=").toList ++ c.domain])
          ++ (if c.path = [] then [] else [("Path=").toList ++ c.path])
          ++ (if c.secure then [("Secure").toList] else [])
          ++ (if c.httpOnly then [("HttpOnly").toList] else [])
          ++ (if c.sameSite = [] then []
              else [("SameSite=").toList ++ c.sameSite])) := by
    unfold serialSegs
    rw [List.map_append, List.map_append, List.map_append, List.map_append,
      List.map_append, List.map_append, List.map_append]
    rw [hA, hB, hC, hD, hE, hF, hG, List.map_cons, List.map_nil,
      trim_nv c.name c.value hW.nameTrim hW.valueTrim]
    simp only [List.cons_append, List.nil_append, List.append_assoc]
  have hbf : buildFirst (c.name ++ '=' :: c.value) =
      mkCookie c.name c.value := by
    unfold buildFirst
    simp only [splitFirstEq_append_eq c.name c.value hW.nameEq]
    rw [hW.nameTrim, hW.valueTrim]
  have hnvne : (c.name ++ '=' :: c.value) ≠ [] := by simp
  unfold buildCookie
  rw [hts]
  rw [if_neg (by
    rw [List.all_cons, listBeq_false_of_ne _ _ hnvne, Bool.false_and]
    simp)]
  show some (List.foldl applyAttr (buildFirst (c.name ++ '=' :: c.value)) _) =
    some c
  rw [hbf]
  congr 1
  rw [List.foldl_append, List.foldl_append, List.foldl_append,
    List.foldl_append, List.foldl_append, List.foldl_append]
  have s1 : List.foldl applyAttr (mkCookie c.name c.value)
      (if c.expirationDate = [] then []
        else [("Expires=").toList ++ c.expirationDate]) =
      { mkCookie c.name c.value with
          expirationDate := c.expirationDate } := by
    by_cases hp : c.expirationDate = []
    · rw [if_pos hp, hp]
      rfl
    · rw [if_neg hp, List.foldl_cons, List.foldl_nil]
      rw [show ("Expires=").toList ++ c.expirationDate =
        ("Expires").toList ++ '=' :: c.expirationDate from rfl]
      rw [applyAttr_expires, hW.expTrim]
  rw [s1]
  have s2 : List.foldl applyAttr
      { mkCookie c.name c.value with expirationDate := c.expirationDate }
      (if c.maxAge = INT64_MIN then []
        else [("Max-Age=").toList ++ intToStr c.maxAge]) =
      { mkCookie c.name c.value with
          expirationDate := c.expirationDate, maxAge := c.maxAge } := by
    by_cases hp : c.maxAge = INT64_MIN
    · rw [if_pos hp, hp]
      rfl
    · rw [if_neg hp, List.foldl_cons, List.foldl_nil]
      rw [show ("Max-Age=").toList ++ intToStr c.maxAge =
        ("Max-Age").toList ++ '=' :: intToStr c.maxAge from rfl]
      rw [applyAttr_maxage _ _ hW.ageLo hW.ageHi]
  rw [s2]
  have s3 : List.foldl applyAttr
      { mkCookie c.name c.value with
          expirationDate := c.expirationDate, maxAge := c.maxAge }
      (if c.domain = [] then [] else [("Domain=").toList ++ c.domain]) =
      { mkCookie c.name c.value with
          expirationDate := c.expirationDate, maxAge := c.maxAge,
          domain := c.domain } := by
    by_cases hp : c.domain = []
    · rw [if_pos hp, hp]
      rfl
    · rw [if_neg hp, List.foldl_cons, List.foldl_nil]
      rw [show ("Domain=").toList ++ c.domain =
        ("Domain").toList ++ '=' :: c.domain from rfl]
      rw [applyAttr_domain, hW.domTrim]
  rw [s3]
  have s4 : List.foldl applyAttr
      { mkCookie c.name c.value with
          expirationDate := c.expirationDate, maxAge := c.maxAge,
          domain := c.domain }
      (if c.path = [] then [] else [("Path=").toList ++ c.path]) =
      { mkCookie c.name c.value with
          expirationDate := c.expirationDate, maxAge := c.maxAge,
          domain := c.domain, path := c.path } := by
    by_cases hp : c.path = []
    · rw [if_pos hp, hp]
      rfl
    · rw [if_neg hp, List.foldl_cons, List.foldl_nil]
      rw [show ("Path=").toList ++ c.path =
        ("Path").toList ++ '=' :: c.path from rfl]
      rw [applyAttr_path, hW.pathTrim]
  rw [s4]
  have s5 : List.foldl applyAttr
      { mkCookie c.name c.value with
          expirationDate := c.expirationDate, maxAge := c.maxAge,
          domain := c.domain, path := c.path }
      (if c.secure then [("Secure").toList] else []) =
      { mkCookie c.name c.value with
          expirationDate := c.expirationDate, maxAge := c.maxAge,
          domain := c.domain, path := c.path, secure := c.secure } := by
    cases hsec : c.secure
    · rw [if_neg (by simp)]
      rfl
    · rw [if_pos rfl, List.foldl_cons, List.foldl_nil, applyAttr_secure_tok]
  rw [s5]
  have s6 : List.foldl applyAttr
      { mkCookie c.name c.value with
          expirationDate := c.expirationDate, maxAge := c.maxAge,
          domain := c.domain, path := c.path, secure := c.secure }
      (if c.httpOnly then [("HttpOnly").toList] else []) =
      { mkCookie c.name c.value with
          expirationDate := c.expirationDate, maxAge := c.maxAge,
          domain := c.domain, path := c.path, secure := c.secure,
          httpOnly := c.httpOnly } := by
    cases hho : c.httpOnly
    · rw [if_neg (by simp)]
      rfl
    · rw [if_pos rfl, List.foldl_cons, List.foldl_nil,
        applyAttr_httponly_tok]
  rw [s6]
  have s7 : List.foldl applyAttr
      { mkCookie c.name c.value with
          expirationDate := c.expirationDate, maxAge := c.maxAge,
          domain := c.domain, path := c.path, secure := c.secure,
          httpOnly := c.httpOnly }
      (if c.sameSite = [] then []
        else [("SameSite=").toList ++ c.sameSite]) =
      { mkCookie c.name c.value with
          expirationDate := c.expirationDate, maxAge := c.maxAge,
          domain := c.domain, path := c.path, secure := c.secure,
          httpOnly := c.httpOnly, sameSite := c.sameSite } := by
    by_cases hp : c.sameSite = []
    · rw [if_pos hp, hp]
      rfl
    · have hvalid : validSameSite c.sameSite = true := hW.ssOK.resolve_left hp
      rw [if_neg hp, List.foldl_cons, List.foldl_nil]
      rw [show ("SameSite=").toList ++ c.sameSite =
        ("SameSite").toList ++ '=' :: c.sameSite from rfl]
      rw [applyAttr_samesite _ _ hvalid]
  rw [s7]
  rfl

theorem serialSegs_ne_nil (c : TCookie) : serialSegs c ≠ [] := by
  unfold serialSegs
  simp

theorem serialSegs_facts (c : TCookie) (hW : CookieWF c) :
    ∀ seg ∈ serialSegs c, ';' ∉ seg ∧ splitSepCommas seg = [seg] := by
  intro seg hs
  unfold serialSegs at hs
  rcases List.mem_append.1 hs with hs | hs
  rotate_left
  · -- SameSite
    obtain ⟨hseg, hp⟩ := mem_opt_singleton _ _ _ hs
    subst hseg
    have hvalid : validSameSite c.sameSite = true := hW.ssOK.resolve_left hp
    have hfv := validSameSite_facts _ hvalid
    constructor
    · intro hm
      rcases List.mem_append.1 hm with h1 | h1
      · exact absurd h1 (by decide)
      · exact hfv.2.2.1 h1
    · apply splitSepCommas_no_comma
      intro ch hch heq
      subst heq
      rcases List.mem_append.1 hch with h1 | h1
      · exact absurd h1 (by decide)
      · exact hfv.2.1 h1
  rcases List.mem_append.1 hs with hs | hs
  rotate_left
  · -- HttpOnly
    obtain ⟨hseg, _⟩ := mem_opt_singleton' _ _ _ hs
    subst hseg
    exact ⟨by decide, by decide⟩
  rcases List.mem_append.1 hs with hs | hs
  rotate_left
  · -- Secure
    obtain ⟨hseg, _⟩ := mem_opt_singleton' _ _ _ hs
    subst hseg
    exact ⟨by decide, by decide⟩
  rcases List.mem_append.1 hs with hs | hs
  rotate_left
  · -- Path
    obtain ⟨hseg, _⟩ := mem_opt_singleton _ _ _ hs
    subst hseg
    constructor
    · intro hm
      rcases List.mem_append.1 hm with h1 | h1
      · exact absurd h1 (by decide)
      · exact hW.pathSemi h1
    · exact splitSepCommas_eq_single _
        (PieceOK_val_seg ((" Path=").toList) c.path hW.pathVal (by decide))
  rcases List.mem_append.1 hs with hs | hs
  rotate_left
  · -- Domain
    obtain ⟨hseg, _⟩ := mem_opt_singleton _ _ _ hs
    subst hseg
    constructor
    · intro hm
      rcases List.mem_append.1 hm with h1 | h1
      · exact absurd h1 (by decide)
      · exact hW.domSemi h1
    · exact splitSepCommas_eq_single _
        (PieceOK_val_seg ((" Domain=").toList) c.domain hW.domVal
          (by decide))
  rcases List.mem_append.1 hs with hs | hs
  rotate_left
  · -- Max-Age
    obtain ⟨hseg, _⟩ := mem_opt_singleton _ _ _ hs
    subst hseg
    constructor
    · intro hm
      rcases List.mem_append.1 hm with h1 | h1
      · exact absurd h1 (by decide)
      · exact (intToStr_facts c.maxAge ';' h1).2.2 rfl
    · apply splitSepCommas_no_comma
      intro ch hch heq
      subst heq
      rcases List.mem_append.1 hch with h1 | h1
      · exact absurd h1 (by decide)
      · exact (intToStr_facts c.maxAge ',' h1).2.1 rfl
  rcases List.mem_append.1 hs with hs | hs
  rotate_left
  · -- Expires
    obtain ⟨hseg, _⟩ := mem_opt_singleton _ _ _ hs
    subst hseg
    constructor
    · intro hm
      rcases List.mem_append.1 hm with h1 | h1
      · exact absurd h1 (by decide)
      · exact hW.expSemi h1
    · exact splitSepCommas_eq_single _ (PieceOK_expires_seg c.expirationDate)
  · -- name=value
    simp only [List.mem_singleton] at hs
    subst hs
    constructor
    · intro hm
      rcases List.mem_append.1 hm with h1 | h1
      · exact hW.nameSemi h1
      · rcases List.mem_cons.1 h1 with h2 | h2
        · cases h2
        · exact hW.valueSemi h2
    · exact splitSepCommas_eq_single _ hW.nvOK

/-- For every cookie satisfying the re-serialization invariant, parsing its
full-mode raw form yields exactly that record. -/
theorem parseCookies_toRawForm (c : TCookie) (hW : CookieWF c) :
    parseCookies (c.toRawForm true) = [c] := by
  rw [toRawForm_eq_joinSemi]
  unfold parseCookies
  have hfacts := serialSegs_facts c hW
  rw [splitSemi_joinSemi _ (serialSegs_ne_nil c)
    (fun seg hs => (hfacts seg hs).1)]
  rw [tagPieces_singles _ (fun seg hs => (hfacts seg hs).2)]
  rw [groupTagged_singles _ [], List.reverse_nil, List.nil_append]
  rw [List.filterMap_cons]
  rw [buildCookie_serialSegs c hW]
  rfl

/-- C1: round-trip stability.  For every cookie string `S` that yields at
least one cookie, serializing the first parsed cookie with `toRawForm` in
full mode and parsing that output again yields exactly that cookie record —
literal record equality, which in particular is field-for-field equality
(exact byte equality of the serialized forms is not claimed). -/
theorem parse_serialize_roundtrip (s : List Char) (c : TCookie)
    (rest : List TCookie) (h : parseCookies s = c :: rest) :
    parseCookies (c.toRawForm true) = [c] :=
  parseCookies_toRawForm c
    (parseCookies_WF s c (by rw [h]; exact List.mem_cons_self _ _))

/-- Witness for C1 at a concrete header. -/
theorem parse_serialize_roundtrip_witness :
    parseCookies
        ((mkCookie (("a").toList) (("1").toList)).toRawForm true) =
      [mkCookie (("a").toList) (("1").toList)] :=
  parse_serialize_roundtrip (("a=1").toList)
    (mkCookie (("a").toList) (("1").toList)) [] (by decide)
